import Mathlib

/-!
Verification of the discharge-flagging pipeline of this repository.

The repository contains two iterations of the same Flask endpoint:
`src/app.py` (function `generate_plot`, the earlier iteration) and
`src/main.py` (function `plot_site`, the later iteration).  The claims are
settled against the later iteration `src/main.py`, whose flagging block
(lines 102-144) is embedded below; where the earlier iteration differs this
is noted.

Modelling conventions:
* Discharge values and timestamps are rationals (`ℚ`).  After the
  normalization step of `main.py` line 104 (`dropna`) no NaN values remain
  in the frame, so totally-defined rational arithmetic is a faithful model
  of the arithmetic actually performed on retained rows.
* Raw input records carry the results of `pd.to_datetime(..., errors=coerce)`
  and `pd.to_numeric(..., errors=coerce)` as `Option` fields: `none` models a
  parse failure (NaT / NaN), which line 104 drops.
* The isolation-forest fit-predict step (sklearn, `main.py` line 138) is an
  external library call on the non-zero sub-series; it is modelled as an
  explicit function parameter `model : List ℚ → List Bool` (true = the
  prediction -1, outlier).  Every theorem quantifies over it, so nothing
  proved depends on the concrete behaviour of the forest.
* `np.percentile`, `Series.quantile` (linear interpolation), `Series.mean`,
  `Series.diff`, the `groupby`/`cumsum`/`transform` idioms and the sorting
  performed by `DataFrame.sort_values` are embedded from their documented
  (and, for the sort, implemented) semantics, see each definition.
-/

namespace Discharge

attribute [local semireducible] Rat.add Rat.sub Rat.mul Rat.inv Rat.ofScientific

/-- A raw input record from the external API, after the two coercing parses
of `main.py` lines 102-103, restricted to FINITE numeric results: `date?`
is the result of `pd.to_datetime` (`none` = NaT, unparsable), `value?`
the result of `pd.to_numeric` (`none` = NaN, unparsable).  Timestamps are
modelled as rationals (any linearly ordered, dense time axis).  This is
the finite-valued restriction of `RawRecordF` below: `pd.to_numeric` can
also return the two IEEE infinities, which the detector-stage arithmetic
of this development does not model; the normalization stage, where they
matter, is settled over `RawRecordF`. -/
structure RawRecord where
  date? : Option ℚ
  value? : Option ℚ
deriving DecidableEq, Repr

/-- A retained observation with finite discharge: both fields parsed. -/
structure Obs where
  date : ℚ
  discharge : ℚ
deriving DecidableEq, Repr

/-- A parsed numeric cell as `pd.to_numeric(errors="coerce")` actually
delivers it, NaN excluded: a finite float, or one of the two IEEE
infinities (`to_numeric` maps the strings "inf"/"-inf"/"Infinity" and the
values `float("inf")`/`float("-inf")` to them, and infinities are not
NaN, so the `dropna` of `main.py` line 104 retains them). -/
inductive PFloat where
  | fin (q : ℚ)
  | posInf
  | negInf
deriving DecidableEq, Repr

/-- Whether a parsed float is finite (`np.isfinite`). -/
def PFloat.finite : PFloat → Bool
  | .fin _ => true
  | _ => false

/-- A raw record at the parse stage, faithful to the full value domain:
`none` is a parse failure (NaT / NaN); a `some` survives the dropna even
when the parsed float is one of the infinities. -/
structure RawRecordF where
  date? : Option ℚ
  value? : Option PFloat
deriving DecidableEq, Repr

/-- A retained observation of the faithful parse stage: its discharge may
be non-finite. -/
structure ObsF where
  date : ℚ
  discharge : PFloat
deriving DecidableEq, Repr

/-- The finite-valued record embeds into the faithful parse domain. -/
def liftRecord (r : RawRecord) : RawRecordF :=
  ⟨r.date?, r.value?.map PFloat.fin⟩

/-- The finite-valued observation embeds into the faithful parse domain. -/
def liftObs (o : Obs) : ObsF :=
  ⟨o.date, PFloat.fin o.discharge⟩

/-- One row of the final annotated sequence: the observation plus the eight
boolean flag columns of `main.py` and the aggregate `FLAGGED` column. -/
structure FlagRow where
  obs : Obs
  negative : Bool
  zero : Bool
  repeated : Bool
  iqrOutlier : Bool
  modelOutlier : Bool
  above95 : Bool
  roc : Bool
  rsd : Bool
  flagged : Bool
deriving DecidableEq, Repr

/-- Result of one request, as the route distinguishes them:
`noData` are the two early returns of `main.py` lines 95-97 and 106-108
(empty raw series, or every record dropped during cleaning);
`degenerateFailure` is the branch `main.py` line 143 taken when the
non-zero subset is empty, where `df.update` with a scalar dict raises
`ValueError` (and the flag columns are never created, so line 144 would
raise `KeyError` in any case) - the exception is caught at line 240 and an
error page is produced instead of a flagged series;
`ok` is the successfully annotated sequence. -/
inductive MainResult where
  | noData : MainResult
  | degenerateFailure : MainResult
  | ok : List FlagRow → MainResult
deriving DecidableEq, Repr

/-- Linear-interpolation quantile (the default interpolation of
`np.percentile` and `Series.quantile`): on the sorted values
`x_0 ≤ ... ≤ x_{m-1}`, the quantile at `p` is `x_i + g * (x_{i+1} - x_i)`
where `i + g = p * (m-1)`, `i = ⌊p * (m-1)⌋`.  The sources only apply it to
nonempty populations; on `[]` this model returns 0. -/
def quantileLinear (p : ℚ) (xs : List ℚ) : ℚ :=
  let s := List.insertionSort (· ≤ ·) xs
  let m := s.length
  if m = 0 then 0
  else
    let h : ℚ := p * ((m : ℚ) - 1)
    let i : ℕ := h.floor.toNat
    let g : ℚ := h - (i : ℚ)
    let lo := s.getD i 0
    let hi := s.getD (min (i + 1) (m - 1)) 0
    lo + g * (hi - lo)

/-- The non-zero sub-series `df[(df.DISCHARGE.notna()) & (df.DISCHARGE != 0)]`
(after `dropna` nothing is NaN, so only the `!= 0` filter remains). -/
def nonZero (ds : List ℚ) : List ℚ :=
  ds.filter (fun d => decide (d ≠ 0))

/-- FLAG_NEGATIVE, `main.py` line 123:
`(df.DISCHARGE < 0) & (df.DISCHARGE.notna()) & (df.DISCHARGE != 0)`. -/
def flagNegative (ds : List ℚ) : List Bool :=
  ds.map (fun d => decide (d < 0 ∧ d ≠ 0))

/-- FLAG_ZERO, `main.py` line 124: `(df.DISCHARGE == 0) & (df.DISCHARGE.notna())`. -/
def flagZero (ds : List ℚ) : List Bool :=
  ds.map (fun d => decide (d = 0))

/-- FLAG_Discharge, `main.py` lines 127-128: discharge above
`np.percentile(non_zero, 95)`, restricted to non-zero. -/
def flagAbove95 (ds : List ℚ) : List Bool :=
  let p95 := quantileLinear (95 / 100) (nonZero ds)
  ds.map (fun d => decide (p95 < d ∧ d ≠ 0))

/-- FLAG_IQR, `main.py` lines 129-131: with `Q1, Q3` the 0.25 / 0.75
linear-interpolation quantiles of the non-zero subset and `IQR = Q3 - Q1`:
if `IQR > 0` flag values outside `[Q1 - 1.5 IQR, Q3 + 1.5 IQR]`, otherwise
flag values different from `Q1`; in both branches restricted to non-zero. -/
def flagIQR (ds : List ℚ) : List Bool :=
  let nz := nonZero ds
  let q1 := quantileLinear (25 / 100) nz
  let q3 := quantileLinear (75 / 100) nz
  let iqr := q3 - q1
  if 0 < iqr then
    ds.map (fun d => decide ((d < q1 - 3/2 * iqr ∨ q3 + 3/2 * iqr < d) ∧ d ≠ 0))
  else
    ds.map (fun d => decide (d ≠ q1 ∧ d ≠ 0))

/-- FLAG_RoC, `main.py` lines 132-133: `RATE_OF_CHANGE = df.DISCHARGE.diff().abs()`
(difference with the previous row of the full retained sequence, NaN on the
first row), flagged when above the 95th percentile of the non-zero subset,
restricted to non-zero rows with a defined difference. -/
def flagRoC (ds : List ℚ) : List Bool :=
  let p95 := quantileLinear (95 / 100) (nonZero ds)
  (List.range ds.length).map (fun i =>
    if i = 0 then false
    else decide (p95 < |ds.getD i 0 - ds.getD (i - 1) 0| ∧ ds.getD i 0 ≠ 0))

/-- Group identifiers of `(s != s.shift()).cumsum()` on a series `s`:
the first element opens group 1, and each element different from its
predecessor opens a new group. -/
def groupIdsAux : ℚ → ℕ → List ℚ → List ℕ
  | _, _, [] => []
  | prev, g, x :: xs =>
      let g' := if x = prev then g else g + 1
      g' :: groupIdsAux x g' xs

/-- Group ids of a series under the run-change cumulative sum
(`(s != s.shift()).cumsum()`; the shifted-in NaN compares unequal, so the
head always opens group 1). -/
def groupIds : List ℚ → List ℕ
  | [] => []
  | x :: xs => 1 :: groupIdsAux x 1 xs

/-- Scatter a per-non-zero-row boolean list back onto the full sequence:
zero rows get `false`, the i-th non-zero row (in order) gets the i-th entry.
This is the alignment-by-index of `df.loc[mask, col] = values` used at
`main.py` lines 136 and 138. -/
def scatterNZ : List ℚ → List Bool → List Bool
  | [], _ => []
  | d :: ds, fs =>
      if d = 0 then false :: scatterNZ ds fs
      else fs.headD false :: scatterNZ ds fs.tail

/-- FLAG_REPEATED of the later iteration, `main.py` lines 135-136: the mask
selects the non-zero rows; on that *sub-series* the run groups
`(sub != sub.shift()).cumsum()` and their sizes are computed, and a
non-zero row is flagged iff its group in the zero-removed sub-series has
size at least 3.  All other rows keep the initialized `False`. -/
def flagRepeatedMain (ds : List ℚ) : List Bool :=
  let es := nonZero ds
  if es = [] then ds.map (fun _ => false)
  else
    let gids := groupIds es
    let fs := gids.map (fun g => decide (3 ≤ gids.count g))
    scatterNZ ds fs

/-- OUTLIER_IF, `main.py` lines 137-139: when the non-zero subset is
nonempty and has more than one distinct value, the isolation forest is fit
on it and its per-point outlier decisions are scattered back by original
position; otherwise the column is all `False`.  `model` is the external
fit-predict step (true = prediction -1). -/
def outlierIF (model : List ℚ → List Bool) (ds : List ℚ) : List Bool :=
  let nz := nonZero ds
  if nz ≠ [] ∧ 1 < nz.dedup.length then scatterNZ ds (model nz)
  else ds.map (fun _ => false)

/-- Mean of the non-zero subset (`Series.mean`, sum divided by count). -/
def nzMean (ds : List ℚ) : ℚ :=
  let nz := nonZero ds
  nz.sum / (nz.length : ℚ)

/-- FLAG_RSD, `main.py` lines 140-142: when the non-zero mean is non-zero,
`PERCENT_DEV = |d - mean| / mean * 100` (division by the signed mean) and a
non-zero row is flagged when this exceeds 1000; when the mean is zero the
column is all `False`. -/
def flagRSD (ds : List ℚ) : List Bool :=
  let mean := nzMean ds
  if mean ≠ 0 then
    ds.map (fun d => decide (1000 < |d - mean| / mean * 100 ∧ d ≠ 0))
  else
    ds.map (fun _ => false)

/-- FLAGGED, `main.py` line 144: row-wise `any` over the eight flag columns
`[FLAG_NEGATIVE, FLAG_ZERO, FLAG_REPEATED, FLAG_IQR, OUTLIER_IF,
FLAG_Discharge, FLAG_RoC, FLAG_RSD]`. -/
def flaggedList (model : List ℚ → List Bool) (ds : List ℚ) : List Bool :=
  (List.range ds.length).map (fun i =>
    (flagNegative ds).getD i false || (flagZero ds).getD i false ||
    (flagRepeatedMain ds).getD i false || (flagIQR ds).getD i false ||
    (outlierIF model ds).getD i false || (flagAbove95 ds).getD i false ||
    (flagRoC ds).getD i false || (flagRSD ds).getD i false)

/-- Assemble the annotated rows from the normalized observations and the
flag columns. -/
def buildRows (model : List ℚ → List Bool) (obs : List Obs) : List FlagRow :=
  let ds := obs.map (·.discharge)
  (List.range obs.length).map (fun i =>
    { obs := obs.getD i ⟨0, 0⟩
      negative := (flagNegative ds).getD i false
      zero := (flagZero ds).getD i false
      repeated := (flagRepeatedMain ds).getD i false
      iqrOutlier := (flagIQR ds).getD i false
      modelOutlier := (outlierIF model ds).getD i false
      above95 := (flagAbove95 ds).getD i false
      roc := (flagRoC ds).getD i false
      rsd := (flagRSD ds).getD i false
      flagged := (flaggedList model ds).getD i false })

/-!
Model of the sort performed by `df.sort_values(by=Date)` at `main.py`
line 104.  pandas passes the default `kind=quicksort` down to numpy's
argsort, whose quicksort is introsort (`aquicksort_` in
numpy/core/src/npysort/quicksort.c.src): median-of-3 Hoare partitioning for
segments longer than 16, insertion sort on segments of at most 16 elements,
heapsort (`aheapsort_`) on a segment when the depth budget
`2 * floor(log2 n)` is exhausted.  The index array `tosort` is modelled as a
`List ℕ` of positions into the key column; comparisons only ever look at
keys.  Loops are translated with explicit fuel larger than any bound the
loops can reach, so the fuel-exhaustion branches are unreachable.
-/

/-- Key of the element referenced by position `i` of the index list. -/
def keyAt (keys : List ℚ) (arr : List ℕ) (i : ℕ) : ℚ :=
  keys.getD (arr.getD i 0) 0

/-- Swap two positions of the index list (`INTP_SWAP`). -/
def lswap (arr : List ℕ) (i j : ℕ) : List ℕ :=
  let a := arr.getD i 0
  let b := arr.getD j 0
  (arr.set i b).set j a

/-- Scan of `do ++pi; while LT(v[*pi], vp)`: first position strictly after
`i` whose key is not below the pivot.  The median-of-3 preparation leaves a
sentinel, so with adequate fuel the scan stops inside the segment. -/
def scanUp (keys : List ℚ) (arr : List ℕ) (vp : ℚ) : ℕ → ℕ → ℕ
  | 0, i => i + 1
  | f + 1, i =>
      let j := i + 1
      if keyAt keys arr j < vp then scanUp keys arr vp f j else j

/-- Scan of `do --pj; while LT(vp, v[*pj])`: first position strictly before
`j` whose key is not above the pivot. -/
def scanDown (keys : List ℚ) (arr : List ℕ) (vp : ℚ) : ℕ → ℕ → ℕ
  | 0, j => j - 1
  | f + 1, j =>
      let i := j - 1
      if vp < keyAt keys arr i then scanDown keys arr vp f i else i

/-- The partition exchange loop of `aquicksort_`: returns the updated index
list and the crossing point `pi`. -/
def partitionLoop (keys : List ℚ) (vp : ℚ) : ℕ → List ℕ → ℕ → ℕ → List ℕ × ℕ
  | 0, arr, pi, _ => (arr, pi)
  | f + 1, arr, pi, pj =>
      let pi' := scanUp keys arr vp (arr.length + 1) pi
      let pj' := scanDown keys arr vp (arr.length + 1) pj
      if pj' ≤ pi' then (arr, pi')
      else partitionLoop keys vp f (lswap arr pi' pj') pi' pj'

/-- One conditional exchange of the median-of-3 preparation:
`if (LT(v[*y], v[*x])) INTP_SWAP(*y, *x)`. -/
def condSwap (keys : List ℚ) (b : List ℕ) (y x : ℕ) : List ℕ :=
  if keyAt keys b y < keyAt keys b x then lswap b y x else b

/-- The three conditional swaps of the median-of-3 pivot selection. -/
def med3 (keys : List ℚ) (arr : List ℕ) (pl pm pr : ℕ) : List ℕ :=
  condSwap keys (condSwap keys (condSwap keys arr pm pl) pr pm) pm pl

/-- One partition step of `aquicksort_` on the segment `[pl, pr]`:
median-of-3 pivot selection with its three conditional swaps, pivot parked
at `pr - 1`, exchange loop from `(pl, pr - 1)`, pivot swapped into the
crossing point. -/
def partitionStep (keys : List ℚ) (arr : List ℕ) (pl pr : ℕ) : List ℕ × ℕ :=
  let pm := pl + (pr - pl) / 2
  let a3 := med3 keys arr pl pm pr
  let vp := keyAt keys a3 pm
  let a4 := lswap a3 pm (pr - 1)
  let (a5, piF) := partitionLoop keys vp (pr - pl + 2) a4 pl (pr - 1)
  (lswap a5 piF (pr - 1), piF)

/-- Stable insertion of index `x` into an (ascending-by-key) prefix: `x`
passes over strictly greater keys and lands after all keys less than or
equal to its own - the position the shift loop
`while (pj > pl && LT(vp, v[*pk]))` produces on a sorted prefix. -/
def insertLE (keys : List ℚ) (x : ℕ) : List ℕ → List ℕ
  | [] => [x]
  | y :: ys =>
      if keys.getD y 0 ≤ keys.getD x 0 then y :: insertLE keys x ys
      else x :: y :: ys

/-- Left-to-right insertion sort of an index list (the final insertion pass
of `aquicksort_` on a leaf segment). -/
def insertionArgsortList (keys : List ℚ) (l : List ℕ) : List ℕ :=
  l.foldl (fun acc x => insertLE keys x acc) []

/-- Insertion sort of the segment `[pl, pr]` of the index list, in place:
the segment is cut out, insertion-sorted, and spliced back. -/
def insertionSeg (keys : List ℚ) (arr : List ℕ) (pl pr : ℕ) : List ℕ :=
  if pr < pl ∨ arr.length ≤ pr then arr
  else
    let seg := (arr.drop pl).take (pr - pl + 1)
    arr.take pl ++ insertionArgsortList keys seg ++ arr.drop (pr + 1)

/-- Heap accessors for `aheapsort_`, which views the segment starting at
`pl` as a 1-indexed heap (`a = tosort - 1`). -/
def heapGet (arr : List ℕ) (pl h : ℕ) : ℕ :=
  arr.getD (pl + h - 1) 0

def heapSet (arr : List ℕ) (pl h v : ℕ) : List ℕ :=
  arr.set (pl + h - 1) v

/-- The inner sift loop of `aheapsort_`: walks the saved index `tmpIdx`
down the heap of size `n`, returning the updated list and the final hole
position `i`. -/
def siftLoop (keys : List ℚ) (pl tmpIdx n : ℕ) : ℕ → List ℕ → ℕ → ℕ → List ℕ × ℕ
  | 0, arr, i, _ => (arr, i)
  | f + 1, arr, i, j =>
      if j ≤ n then
        let j1 :=
          if j < n ∧ keys.getD (heapGet arr pl j) 0 < keys.getD (heapGet arr pl (j + 1)) 0
          then j + 1 else j
        if keys.getD tmpIdx 0 < keys.getD (heapGet arr pl j1) 0 then
          siftLoop keys pl tmpIdx n f (heapSet arr pl i (heapGet arr pl j1)) j1 (2 * j1)
        else (arr, i)
      else (arr, i)

/-- Heapify phase of `aheapsort_` (`for l = n >> 1; l > 0; --l`). -/
def heapBuild (keys : List ℚ) (pl n : ℕ) : List ℕ → ℕ → List ℕ
  | arr, 0 => arr
  | arr, l + 1 =>
      let tmpIdx := heapGet arr pl (l + 1)
      let (a1, i) := siftLoop keys pl tmpIdx n (n + 2) arr (l + 1) (2 * (l + 1))
      heapBuild keys pl n (heapSet a1 pl i tmpIdx) l

/-- Extraction phase of `aheapsort_` (`for ; n > 1; `). -/
def heapExtract (keys : List ℚ) (pl : ℕ) : List ℕ → ℕ → List ℕ
  | arr, 0 => arr
  | arr, 1 => arr
  | arr, n + 2 =>
      let tmpIdx := heapGet arr pl (n + 2)
      let a1 := heapSet arr pl (n + 2) (heapGet arr pl 1)
      let (a2, i) := siftLoop keys pl tmpIdx (n + 1) (n + 3) a1 1 2
      heapExtract keys pl (heapSet a2 pl i tmpIdx) (n + 1)

/-- `aheapsort_` on the segment `[pl, pr]` (called by the quicksort as
`aheapsort_(vv, pl, pr - pl + 1)`). -/
def heapsortSeg (keys : List ℚ) (arr : List ℕ) (pl pr : ℕ) : List ℕ :=
  let n := pr + 1 - pl
  heapExtract keys pl (heapBuild keys pl n arr (n / 2)) n

/-- The main loop of `aquicksort_` in recursive form.  A segment longer
than 16 elements is partitioned; the smaller part is processed first (the
C while loop continues on it, without a depth check) and the larger part
afterwards (the C code pushes it together with the depth `--cdepth` and
checks `cdepth < 0` when the segment is popped at the top of the outer
loop, running `aheapsort_` on it when the budget is spent).  Both children
of a partition carry the parent depth minus one, since
`*psdepth++ = --cdepth` stores the decremented counter with the pushed
segment and the continued segment uses the same decremented value.  A
segment of at most 16 elements gets the final insertion sort. -/
def qsLoop (keys : List ℚ) : ℕ → List ℕ → ℕ → ℕ → ℤ → List ℕ
  | 0, arr, _, _, _ => arr
  | f + 1, arr, pl, pr, depth =>
      if 15 < pr - pl then
        let p := partitionStep keys arr pl pr
        if p.2 - pl < pr - p.2 then
          let a2 := qsLoop keys f p.1 pl (p.2 - 1) (depth - 1)
          if depth - 1 < 0 then heapsortSeg keys a2 (p.2 + 1) pr
          else qsLoop keys f a2 (p.2 + 1) pr (depth - 1)
        else
          let a2 := qsLoop keys f p.1 (p.2 + 1) pr (depth - 1)
          if depth - 1 < 0 then heapsortSeg keys a2 pl (p.2 - 1)
          else qsLoop keys f a2 pl (p.2 - 1) (depth - 1)
      else
        insertionSeg keys arr pl pr

/-- Position of the most significant bit (`npy_get_msb`), i.e.
`floor(log2 n)` for positive `n`, written with structural fuel recursion so
that it evaluates inside the kernel. -/
def msbAux : ℕ → ℕ → ℕ
  | 0, _ => 0
  | f + 1, n => if n ≤ 1 then 0 else msbAux f (n / 2) + 1

def msb (n : ℕ) : ℕ := msbAux n n

/-- numpy argsort with the default `kind=quicksort` on a key column:
introsort over the index list `[0, ..., n-1]` with depth budget
`2 * floor(log2 n)` (`npy_get_msb(num) * 2`); the initial budget is never
negative, so the outermost segment always enters the partition loop. -/
def npArgsort (keys : List ℚ) : List ℕ :=
  let n := keys.length
  if n = 0 then []
  else qsLoop keys (n + 17) (List.range n) 0 (n - 1) (2 * msb n)

/-- Retained records of the `dropna` at `main.py` line 104: rows where both
coercing parses succeeded, in original input order. -/
def retained (raw : List RawRecord) : List Obs :=
  raw.filterMap (fun r =>
    match r.date?, r.value? with
    | some d, some v => some ⟨d, v⟩
    | _, _ => none)

/-- Normalization, `main.py` lines 102-104: parse (encoded in the record
fields), drop rows failing either parse, then
`sort_values(by=Date)` - numpy quicksort (introsort) on the timestamp
column - and `reset_index`, renumbering positions `0..n-1`. -/
def mainNormalize (raw : List RawRecord) : List Obs :=
  let r := retained raw
  (npArgsort (r.map (·.date))).filterMap (fun i => r[i]?)

/-- The `dropna` of `main.py` line 104 over the faithful value domain:
only parse failures (NaT / NaN) are dropped; rows whose numeric parse
produced an infinity are retained. -/
def retainedF (raw : List RawRecordF) : List ObsF :=
  raw.filterMap (fun r =>
    match r.date?, r.value? with
    | some d, some v => some ⟨d, v⟩
    | _, _ => none)

/-- Normalization over the faithful value domain: parse, drop failures,
numpy quicksort by timestamp.  The value column plays no role in the
sort, so the model is the same argsort on the dates. -/
def mainNormalizeF (raw : List RawRecordF) : List ObsF :=
  let r := retainedF raw
  (npArgsort (r.map (·.date))).filterMap (fun i => r[i]?)

/-- One whole request of `main.py` lines 95-144: the two no-data early
returns, the degenerate branch of line 143 that raises instead of
producing flags, and the annotated sequence otherwise. -/
def mainPipeline (model : List ℚ → List Bool) (raw : List RawRecord) : MainResult :=
  if raw = [] then .noData
  else
    let obs := mainNormalize raw
    if obs = [] then .noData
    else
      let ds := obs.map (·.discharge)
      if nonZero ds = [] then .degenerateFailure
      else .ok (buildRows model obs)

/-- The pipeline with the isolation forest drawn from a seeded family:
`IsolationForest(random_state=seed)` is deterministic given its seed, so a
run is a pure function of the seed and the fitted data.  `main.py`
line 138 fixes `random_state=42`. -/
def mainPipelineSeeded (family : ℕ → List ℚ → List Bool) (seed : ℕ)
    (raw : List RawRecord) : MainResult :=
  mainPipeline (family seed) raw

/-- Annotated rows of a result (empty for the non-`ok` outcomes). -/
def rowsOf : MainResult → List FlagRow
  | .ok rows => rows
  | _ => []

/-- All-false row, used as the `getD` default in positional statements. -/
def blankRow : FlagRow :=
  { obs := ⟨0, 0⟩, negative := false, zero := false, repeated := false,
    iqrOutlier := false, modelOutlier := false, above95 := false,
    roc := false, rsd := false, flagged := false }

/-- Discharge column of an annotated sequence. -/
def dsOf (rows : List FlagRow) : List ℚ :=
  rows.map (·.obs.discharge)

/-- Non-zero discharge subset of an annotated sequence. -/
def nzOf (rows : List FlagRow) : List ℚ :=
  nonZero (dsOf rows)

/-!
Specification-side definitions.  These follow the words of the
specification (maximal runs, stable ascending order) and are used to state
the claims against the embedded code.
-/

/-- Prepend one value to a run-length encoding: it either extends the
first run (equal value) or opens a new singleton run. -/
def rleCons (x : ℚ) : List (ℚ × ℕ) → List (ℚ × ℕ)
  | [] => [(x, 1)]
  | (y, k) :: rest => if x = y then (x, k + 1) :: rest else (x, 1) :: (y, k) :: rest

/-- Run-length encoding of a sequence: maximal blocks of consecutive equal
values with their lengths. -/
def rle : List ℚ → List (ℚ × ℕ)
  | [] => []
  | x :: xs => rleCons x (rle xs)

/-- Per-element flags of the rule: an element is flagged iff its maximal
run of consecutive equal values has length at least 3. -/
def runFlags (es : List ℚ) : List Bool :=
  (rle es).flatMap (fun vk => List.replicate vk.2 (decide (3 ≤ vk.2)))

/-- The REPEATED_RUN rule exactly as the claim states it: runs are taken
over the full ordered sequence, a zero value breaks a run and is itself
never flagged, and an observation is flagged iff it lies in a maximal run
of equal non-zero values of length at least 3. -/
def zeroBreakRepeated (ds : List ℚ) : List Bool :=
  (rle ds).flatMap (fun vk => List.replicate vk.2 (decide (vk.1 ≠ 0 ∧ 3 ≤ vk.2)))

/-- The group-id flags computed by the embedded code
(`groupby(cumsum).transform(size) >= 3`). -/
def gflags (es : List ℚ) : List Bool :=
  (groupIds es).map (fun g => decide (3 ≤ (groupIds es).count g))

/-- Ascending-with-stable-ties comparison of positions `i, j` of a key
column: strictly smaller key, or equal keys in original position order. -/
def lexLe (keys : List ℚ) (i j : ℕ) : Prop :=
  keys.getD i 0 < keys.getD j 0 ∨ (keys.getD i 0 = keys.getD j 0 ∧ i ≤ j)

instance (keys : List ℚ) : DecidableRel (lexLe keys) := by
  unfold lexLe; infer_instance

instance (keys : List ℚ) : IsTotal ℕ (lexLe keys) where
  total i j := by
    unfold lexLe
    rcases lt_trichotomy (keys.getD i 0) (keys.getD j 0) with h | h | h
    · exact Or.inl (Or.inl h)
    · rcases Nat.le_total i j with hij | hij
      · exact Or.inl (Or.inr ⟨h, hij⟩)
      · exact Or.inr (Or.inr ⟨h.symm, hij⟩)
    · exact Or.inr (Or.inl h)

instance (keys : List ℚ) : IsTrans ℕ (lexLe keys) where
  trans i j k hij hjk := by
    unfold lexLe at *
    rcases hij with h | ⟨he, hle⟩
    · rcases hjk with h' | ⟨he', _⟩
      · exact Or.inl (h.trans h')
      · exact Or.inl (he' ▸ h)
    · rcases hjk with h' | ⟨he', hle'⟩
      · exact Or.inl (he ▸ h')
      · exact Or.inr ⟨he.trans he', hle.trans hle'⟩

instance (keys : List ℚ) : IsAntisymm ℕ (lexLe keys) where
  antisymm i j hij hji := by
    unfold lexLe at *
    rcases hij with h | ⟨he, hle⟩
    · rcases hji with h' | ⟨he', _⟩
      · exact absurd (h.trans h') (lt_irrefl _)
      · exact absurd h (he' ▸ lt_irrefl _)
    · rcases hji with h' | ⟨_, hle'⟩
      · exact absurd h' (he ▸ lt_irrefl _)
      · exact Nat.le_antisymm hle hle'

/-- The stable ascending argsort the specification describes: positions
ordered by key, ties kept in original order (the unique sorted permutation
under `lexLe`). -/
def stableArgsort (keys : List ℚ) : List ℕ :=
  List.insertionSort (lexLe keys) (List.range keys.length)

/-- Normalization as the claim describes it: retained observations in
stable ascending timestamp order. -/
def specNormalize (raw : List RawRecord) : List Obs :=
  let r := retained raw
  (stableArgsort (r.map (·.date))).filterMap (fun i => r[i]?)

/-- Normalization as the claim describes it, over the faithful value
domain: retained observations in stable ascending timestamp order. -/
def specNormalizeF (raw : List RawRecordF) : List ObsF :=
  let r := retainedF raw
  (stableArgsort (r.map (·.date))).filterMap (fun i => r[i]?)

/-!
Concrete inputs used by counterexamples and witnesses.
-/

/-- A model (isolation-forest stand-in) that flags nothing. -/
def constFalse : List ℚ → List Bool := fun l => l.map (fun _ => false)

/-- A seeded model family that flags nothing at every seed. -/
def constFalseFamily : ℕ → List ℚ → List Bool := fun _ => constFalse

/-- Input for the aggregate counterexample: dates 0..7, discharges
`[-900, -900, 1, 1, 100, 100, 1100, 1100]`.  The non-zero mean is `301/4`,
so `PERCENT_DEV > 1000` at the two values 1100, while no run reaches
length 3, the 95th percentile equals 1100 (not exceeded), 1100 stays inside
the IQR fences and below the rate-of-change threshold. -/
def rawAgg : List RawRecord :=
  [⟨some 0, some (-900)⟩, ⟨some 1, some (-900)⟩, ⟨some 2, some 1⟩,
   ⟨some 3, some 1⟩, ⟨some 4, some 100⟩, ⟨some 5, some 100⟩,
   ⟨some 6, some 1100⟩, ⟨some 7, some 1100⟩]

/-- Input for the repeated-run counterexample: discharges `[5, 0, 5, 5]`
at dates 0..3 - two equal non-zero values separated by a zero, followed by
one more equal value. -/
def rawRuns : List RawRecord :=
  [⟨some 0, some 5⟩, ⟨some 1, some 0⟩, ⟨some 2, some 5⟩, ⟨some 3, some 5⟩]

/-- Input with a single retained, zero-valued observation. -/
def rawAllZero : List RawRecord :=
  [⟨some 0, some 0⟩]

/-- Input with 17 retained records sharing one timestamp, discharges
1..17: large enough that numpy's quicksort partitions instead of running
its stable insertion sort. -/
def rawTies : List RawRecord :=
  (List.range 17).map (fun i => ⟨some 0, some ((i : ℚ) + 1)⟩)

/-- The 17-tie instability input over the faithful parse domain. -/
def rawTiesF : List RawRecordF :=
  rawTies.map liftRecord

/-- Witness input for the normalization claim: a finite value, a value
parsing to +inf (retained by the dropna), and a NaN (dropped), with dates
out of order. -/
def rawInfF : List RawRecordF :=
  [⟨some 2, some (PFloat.fin 5)⟩, ⟨some 0, some PFloat.posInf⟩, ⟨some 1, none⟩]

/-- Witness input for the rate-of-change claim: discharges `[1, 1, 100]`,
whose non-zero 95th percentile is `90.1` and whose last jump is 99. -/
def rawRoC : List RawRecord :=
  [⟨some 0, some 1⟩, ⟨some 1, some 1⟩, ⟨some 2, some 100⟩]

/-- Witness input for the IQR claim: nine values 10 and one value 1000, so
both quartiles are 10, the IQR is zero, and the zero-IQR fallback flags
exactly the value 1000. -/
def rawIQR : List RawRecord :=
  (List.range 10).map (fun i => ⟨some (i : ℚ), some (if i = 9 then 1000 else 10)⟩)

/-!
Helper lemmas: positional access, lengths, projections of the row builder,
and inversion of the pipeline control flow.
-/

theorem map_getD (L : List α) (f : α → β) (d : α) (i : ℕ) :
    (L.map f).getD i (f d) = f (L.getD i d) := by
  induction L generalizing i with
  | nil => simp
  | cons x xs ih => cases i <;> simp [ih]

theorem range_map_getD (L : List α) (d : α) (n : ℕ) (h : L.length = n) :
    (List.range n).map (fun i => L.getD i d) = L := by
  subst h
  induction L with
  | nil => simp
  | cons x xs ih =>
    rw [List.length_cons, List.range_succ_eq_map, List.map_cons, List.map_map]
    refine congrArg (x :: ·) ?_
    simp only [Function.comp_def, List.getElem?_cons_succ]
    exact ih

theorem range_map_getD_lt (F : ℕ → α) {n i : ℕ} (h : i < n) (d : α) :
    ((List.range n).map F).getD i d = F i := by
  rw [List.getD_eq_getElem?_getD, List.getElem?_map, List.getElem?_range h]
  rfl

theorem length_scatterNZ (ds : List ℚ) (fs : List Bool) :
    (scatterNZ ds fs).length = ds.length := by
  induction ds generalizing fs with
  | nil => rfl
  | cons d ds ih => unfold scatterNZ; split <;> simp [ih]

theorem scatterNZ_nil_flags (ds : List ℚ) :
    scatterNZ ds [] = ds.map (fun _ => false) := by
  induction ds with
  | nil => rfl
  | cons d ds ih => unfold scatterNZ; split <;> simp [ih]

theorem length_flagNegative (ds : List ℚ) : (flagNegative ds).length = ds.length := by
  simp [flagNegative]

theorem length_flagZero (ds : List ℚ) : (flagZero ds).length = ds.length := by
  simp [flagZero]

theorem length_flagAbove95 (ds : List ℚ) : (flagAbove95 ds).length = ds.length := by
  simp [flagAbove95]

theorem length_flagIQR (ds : List ℚ) : (flagIQR ds).length = ds.length := by
  unfold flagIQR; dsimp only; split <;> simp

theorem length_flagRoC (ds : List ℚ) : (flagRoC ds).length = ds.length := by
  simp [flagRoC]

theorem length_flagRepeatedMain (ds : List ℚ) :
    (flagRepeatedMain ds).length = ds.length := by
  unfold flagRepeatedMain; dsimp only; split <;> simp [length_scatterNZ]

theorem length_outlierIF (model : List ℚ → List Bool) (ds : List ℚ) :
    (outlierIF model ds).length = ds.length := by
  unfold outlierIF; dsimp only; split <;> simp [length_scatterNZ]

theorem length_flagRSD (ds : List ℚ) : (flagRSD ds).length = ds.length := by
  unfold flagRSD; dsimp only; split <;> simp

theorem length_flaggedList (model : List ℚ → List Bool) (ds : List ℚ) :
    (flaggedList model ds).length = ds.length := by
  simp [flaggedList]

theorem length_buildRows (model : List ℚ → List Bool) (obs : List Obs) :
    (buildRows model obs).length = obs.length := by
  simp [buildRows]

theorem buildRows_map_obs (model : List ℚ → List Bool) (obs : List Obs) :
    (buildRows model obs).map (·.obs) = obs := by
  unfold buildRows
  rw [List.map_map]
  exact range_map_getD obs ⟨0, 0⟩ obs.length rfl

theorem buildRows_map_discharge (model : List ℚ → List Bool) (obs : List Obs) :
    (buildRows model obs).map (·.obs.discharge) = obs.map (·.discharge) := by
  unfold buildRows
  rw [List.map_map]
  have hpt : ∀ i : ℕ, (obs.getD i ⟨0, 0⟩).discharge = (obs.map (·.discharge)).getD i 0 :=
    fun i => (map_getD obs (·.discharge) ⟨0, 0⟩ i).symm
  refine Eq.trans ?_ (range_map_getD (obs.map (·.discharge)) 0 obs.length (by simp))
  exact List.map_congr_left (fun i _ => hpt i)

theorem buildRows_map_negative (model : List ℚ → List Bool) (obs : List Obs) :
    (buildRows model obs).map (·.negative) = flagNegative (obs.map (·.discharge)) := by
  unfold buildRows
  rw [List.map_map]
  exact range_map_getD _ false _ ((length_flagNegative _).trans (by simp))

theorem buildRows_map_zero (model : List ℚ → List Bool) (obs : List Obs) :
    (buildRows model obs).map (·.zero) = flagZero (obs.map (·.discharge)) := by
  unfold buildRows
  rw [List.map_map]
  exact range_map_getD _ false _ ((length_flagZero _).trans (by simp))

theorem buildRows_map_repeated (model : List ℚ → List Bool) (obs : List Obs) :
    (buildRows model obs).map (·.repeated) = flagRepeatedMain (obs.map (·.discharge)) := by
  unfold buildRows
  rw [List.map_map]
  exact range_map_getD _ false _ ((length_flagRepeatedMain _).trans (by simp))

theorem buildRows_map_iqr (model : List ℚ → List Bool) (obs : List Obs) :
    (buildRows model obs).map (·.iqrOutlier) = flagIQR (obs.map (·.discharge)) := by
  unfold buildRows
  rw [List.map_map]
  exact range_map_getD _ false _ ((length_flagIQR _).trans (by simp))

theorem buildRows_map_modelOutlier (model : List ℚ → List Bool) (obs : List Obs) :
    (buildRows model obs).map (·.modelOutlier) = outlierIF model (obs.map (·.discharge)) := by
  unfold buildRows
  rw [List.map_map]
  exact range_map_getD _ false _ ((length_outlierIF _ _).trans (by simp))

theorem buildRows_map_above95 (model : List ℚ → List Bool) (obs : List Obs) :
    (buildRows model obs).map (·.above95) = flagAbove95 (obs.map (·.discharge)) := by
  unfold buildRows
  rw [List.map_map]
  exact range_map_getD _ false _ ((length_flagAbove95 _).trans (by simp))

theorem buildRows_map_roc (model : List ℚ → List Bool) (obs : List Obs) :
    (buildRows model obs).map (·.roc) = flagRoC (obs.map (·.discharge)) := by
  unfold buildRows
  rw [List.map_map]
  exact range_map_getD _ false _ ((length_flagRoC _).trans (by simp))

theorem buildRows_map_rsd (model : List ℚ → List Bool) (obs : List Obs) :
    (buildRows model obs).map (·.rsd) = flagRSD (obs.map (·.discharge)) := by
  unfold buildRows
  rw [List.map_map]
  exact range_map_getD _ false _ ((length_flagRSD _).trans (by simp))

theorem buildRows_map_flagged (model : List ℚ → List Bool) (obs : List Obs) :
    (buildRows model obs).map (·.flagged) = flaggedList model (obs.map (·.discharge)) := by
  unfold buildRows
  rw [List.map_map]
  exact range_map_getD _ false _ ((length_flaggedList _ _).trans (by simp))

theorem mainPipeline_ok_elim {model : List ℚ → List Bool} {raw : List RawRecord}
    {rows : List FlagRow} (h : mainPipeline model raw = .ok rows) :
    rows = buildRows model (mainNormalize raw) ∧ mainNormalize raw ≠ [] ∧
      nonZero ((mainNormalize raw).map (·.discharge)) ≠ [] := by
  simp only [mainPipeline] at h
  split_ifs at h with h1 h2 h3
  · injection h with h
    exact ⟨h.symm, h2, h3⟩

theorem getD_map_lt (L : List α) (f : α → β) {i : ℕ} (hi : i < L.length)
    (d : α) (b : β) : (L.map f).getD i b = f (L.getD i d) := by
  rw [List.getD_eq_getElem?_getD, List.getElem?_map, List.getElem?_eq_getElem hi,
    List.getD_eq_getElem?_getD, List.getElem?_eq_getElem hi]
  rfl

theorem getD_const_false (ds : List ℚ) (i : ℕ) :
    (ds.map (fun _ => false)).getD i false = false := by
  by_cases hi : i < ds.length
  · rw [getD_map_lt ds _ hi 0]
  · rw [List.getD_eq_default]
    simpa using hi

theorem dsOf_pipeline {model : List ℚ → List Bool} {raw : List RawRecord}
    {rows : List FlagRow} (h : mainPipeline model raw = .ok rows) :
    dsOf rows = (mainNormalize raw).map (·.discharge) := by
  obtain ⟨hr, -, -⟩ := mainPipeline_ok_elim h
  subst hr
  exact buildRows_map_discharge model (mainNormalize raw)

theorem buildRows_getD_lt (model : List ℚ → List Bool) (obs : List Obs) {i : ℕ}
    (hi : i < obs.length) :
    (buildRows model obs).getD i blankRow =
      { obs := obs.getD i ⟨0, 0⟩
        negative := (flagNegative (obs.map (·.discharge))).getD i false
        zero := (flagZero (obs.map (·.discharge))).getD i false
        repeated := (flagRepeatedMain (obs.map (·.discharge))).getD i false
        iqrOutlier := (flagIQR (obs.map (·.discharge))).getD i false
        modelOutlier := (outlierIF model (obs.map (·.discharge))).getD i false
        above95 := (flagAbove95 (obs.map (·.discharge))).getD i false
        roc := (flagRoC (obs.map (·.discharge))).getD i false
        rsd := (flagRSD (obs.map (·.discharge))).getD i false
        flagged := (flaggedList model (obs.map (·.discharge))).getD i false } := by
  unfold buildRows
  exact range_map_getD_lt _ hi _

theorem buildRows_getD_ge (model : List ℚ → List Bool) (obs : List Obs) {i : ℕ}
    (hi : ¬ i < obs.length) :
    (buildRows model obs).getD i blankRow = blankRow := by
  rw [List.getD_eq_default]
  rw [length_buildRows]
  omega

theorem flaggedList_getD_lt (model : List ℚ → List Bool) (ds : List ℚ) {i : ℕ}
    (hi : i < ds.length) :
    (flaggedList model ds).getD i false =
      ((flagNegative ds).getD i false || (flagZero ds).getD i false ||
       (flagRepeatedMain ds).getD i false || (flagIQR ds).getD i false ||
       (outlierIF model ds).getD i false || (flagAbove95 ds).getD i false ||
       (flagRoC ds).getD i false || (flagRSD ds).getD i false) := by
  unfold flaggedList
  exact range_map_getD_lt _ hi _

/-!
Claim theorems.
-/

/-- C9: the flagging computation is deterministic.  The only randomized
step is the isolation forest, constructed with the fixed seed
`random_state=42` (`main.py` line 138); a seeded forest is a pure function
of its seed and the fitted data, so two runs whose seeded families agree at
seed 42 produce identical results - in particular bit-identical flag sets -
on every input. -/
theorem C9_deterministic_fixed_seed (fam1 fam2 : ℕ → List ℚ → List Bool)
    (raw : List RawRecord) (h : fam1 42 = fam2 42) :
    mainPipelineSeeded fam1 42 raw = mainPipelineSeeded fam2 42 raw := by
  unfold mainPipelineSeeded
  rw [h]

theorem C9_witness :
    constFalseFamily 42 = constFalseFamily 42 ∧
      mainPipelineSeeded constFalseFamily 42 rawRuns =
        mainPipelineSeeded constFalseFamily 42 rawRuns :=
  ⟨rfl, C9_deterministic_fixed_seed constFalseFamily constFalseFamily rawRuns rfl⟩

/-- C5: the pipeline returns the explicit no-data result exactly when the
raw sequence is empty or every record is dropped during normalization
(`main.py` lines 95-97 and 106-108), and that result is distinguishable
from every successfully processed series. -/
theorem C5_empty_input (model : List ℚ → List Bool) (raw : List RawRecord) :
    (mainPipeline model raw = .noData ↔ raw = [] ∨ mainNormalize raw = []) ∧
      ∀ rows, (MainResult.noData : MainResult) ≠ MainResult.ok rows := by
  refine ⟨?_, fun rows h => by cases h⟩
  simp only [mainPipeline]
  split_ifs with h1 h2 h3 <;> simp_all

/-- C3 (code-bug evaluation): on a normalized series whose retained values
are all zero the pipeline does not complete with all-false statistical
flags; it reaches the branch of `main.py` line 143, where
`df.update({flag: False})` raises `ValueError` (a DataFrame cannot be
built from a dict of plain scalars, and the flag columns are never created,
so the column selection of line 144 would raise `KeyError` regardless), and
the caught exception yields an error result, not an annotated sequence. -/
theorem C3_all_zero_is_failure (model : List ℚ → List Bool) :
    mainPipeline model rawAllZero = .degenerateFailure ∧
      ∀ rows, (MainResult.degenerateFailure : MainResult) ≠ MainResult.ok rows :=
  ⟨rfl, fun rows h => by cases h⟩

/-- C1 (amended): in the final annotated sequence, ANY_FLAGGED is the OR of
EIGHT per-observation flags - the seven named ones and FLAG_RSD
(`main.py` line 144 includes FLAG_RSD in the aggregated columns). -/
theorem C1_flagged_or_of_eight (model : List ℚ → List Bool)
    (raw : List RawRecord) (rows : List FlagRow)
    (h : mainPipeline model raw = .ok rows) (i : ℕ) :
    (rows.getD i blankRow).flagged =
      ((rows.getD i blankRow).negative || (rows.getD i blankRow).zero ||
       (rows.getD i blankRow).repeated || (rows.getD i blankRow).iqrOutlier ||
       (rows.getD i blankRow).modelOutlier || (rows.getD i blankRow).above95 ||
       (rows.getD i blankRow).roc || (rows.getD i blankRow).rsd) := by
  obtain ⟨hr, -, -⟩ := mainPipeline_ok_elim h
  subst hr
  by_cases hi : i < (mainNormalize raw).length
  · rw [buildRows_getD_lt model _ hi]
    exact flaggedList_getD_lt model _ (by simpa using hi)
  · rw [buildRows_getD_ge model _ hi]
    rfl

/-- C1 (counterexample): at the concrete input `rawAgg` (with a model that
flags nothing), observation 6 has ANY_FLAGGED true while each of the seven
named flags is false - only FLAG_RSD fires, so ANY_FLAGGED is not the OR of
the seven named flags. -/
theorem C1_counterexample :
    ((rowsOf (mainPipeline constFalse rawAgg)).getD 6 blankRow).flagged = true ∧
    ((rowsOf (mainPipeline constFalse rawAgg)).getD 6 blankRow).negative = false ∧
    ((rowsOf (mainPipeline constFalse rawAgg)).getD 6 blankRow).zero = false ∧
    ((rowsOf (mainPipeline constFalse rawAgg)).getD 6 blankRow).above95 = false ∧
    ((rowsOf (mainPipeline constFalse rawAgg)).getD 6 blankRow).iqrOutlier = false ∧
    ((rowsOf (mainPipeline constFalse rawAgg)).getD 6 blankRow).roc = false ∧
    ((rowsOf (mainPipeline constFalse rawAgg)).getD 6 blankRow).repeated = false ∧
    ((rowsOf (mainPipeline constFalse rawAgg)).getD 6 blankRow).modelOutlier = false := by
  decide

theorem scatterNZ_getD_zero (ds : List ℚ) (fs : List Bool) (i : ℕ)
    (h : ds.getD i 0 = 0) : (scatterNZ ds fs).getD i false = false := by
  induction ds generalizing fs i with
  | nil => simp [scatterNZ]
  | cons d ds ih =>
    cases i with
    | zero =>
      have hd : d = 0 := by simpa using h
      simp [scatterNZ, hd]
    | succ i =>
      have h' : ds.getD i 0 = 0 := by simpa using h
      unfold scatterNZ
      split <;> simpa using ih _ _ h'

theorem flagRoC_getD_lt (ds : List ℚ) {i : ℕ} (hi : i < ds.length) :
    (flagRoC ds).getD i false =
      if i = 0 then false
      else decide (quantileLinear (95 / 100) (nonZero ds) <
          |ds.getD i 0 - ds.getD (i - 1) 0| ∧ ds.getD i 0 ≠ 0) := by
  unfold flagRoC
  exact range_map_getD_lt _ hi _

theorem flagIQR_getD_lt (ds : List ℚ) {i : ℕ} (hi : i < ds.length) :
    (flagIQR ds).getD i false =
      if 0 < quantileLinear (75 / 100) (nonZero ds) - quantileLinear (25 / 100) (nonZero ds) then
        decide ((ds.getD i 0 < quantileLinear (25 / 100) (nonZero ds) -
            3/2 * (quantileLinear (75 / 100) (nonZero ds) - quantileLinear (25 / 100) (nonZero ds)) ∨
          quantileLinear (75 / 100) (nonZero ds) +
            3/2 * (quantileLinear (75 / 100) (nonZero ds) - quantileLinear (25 / 100) (nonZero ds)) <
            ds.getD i 0) ∧ ds.getD i 0 ≠ 0)
      else decide (ds.getD i 0 ≠ quantileLinear (25 / 100) (nonZero ds) ∧ ds.getD i 0 ≠ 0) := by
  unfold flagIQR
  dsimp only
  split <;> exact getD_map_lt _ _ hi 0 _

theorem flagRSD_getD_lt (ds : List ℚ) {i : ℕ} (hi : i < ds.length) :
    (flagRSD ds).getD i false =
      if nzMean ds ≠ 0 then
        decide (1000 < |ds.getD i 0 - nzMean ds| / nzMean ds * 100 ∧ ds.getD i 0 ≠ 0)
      else false := by
  unfold flagRSD
  dsimp only
  split
  · exact getD_map_lt _ _ hi 0 _
  · exact getD_const_false ds i

/-- C10: the later iteration computes the eighth flag FLAG_RSD
(`main.py` lines 140-142): with `mean` the mean of the non-zero discharge
values, when `mean` is non-zero an observation is flagged exactly when its
discharge is non-zero and `|d - mean| / mean * 100` (division by the signed
mean) exceeds 1000; when `mean` is zero the flag is false everywhere; and
FLAG_RSD participates in the OR that produces FLAGGED (line 144). -/
theorem C10_rsd_characterization (model : List ℚ → List Bool)
    (raw : List RawRecord) (rows : List FlagRow)
    (h : mainPipeline model raw = .ok rows) :
    (nzMean (dsOf rows) ≠ 0 → ∀ i : ℕ,
        (rows.getD i blankRow).rsd =
          decide (1000 < |(dsOf rows).getD i 0 - nzMean (dsOf rows)| / nzMean (dsOf rows) * 100 ∧
            (dsOf rows).getD i 0 ≠ 0)) ∧
    (nzMean (dsOf rows) = 0 → ∀ i : ℕ, (rows.getD i blankRow).rsd = false) ∧
    (∀ i : ℕ, (rows.getD i blankRow).rsd = true → (rows.getD i blankRow).flagged = true) := by
  have hds : dsOf rows = (mainNormalize raw).map (·.discharge) := dsOf_pipeline h
  obtain ⟨hr, -, -⟩ := mainPipeline_ok_elim h
  subst hr
  set obs := mainNormalize raw with hobs
  set ds := obs.map (·.discharge) with hds2
  rw [hds]
  refine ⟨fun hm i => ?_, fun hm i => ?_, fun i hrsd => ?_⟩
  · by_cases hi : i < obs.length
    · rw [buildRows_getD_lt model _ hi]
      show (flagRSD ds).getD i false = _
      rw [flagRSD_getD_lt ds (by simpa [hds2] using hi), if_pos hm]
    · rw [buildRows_getD_ge model _ hi]
      show false = _
      have hz : ds.getD i 0 = 0 := by
        rw [List.getD_eq_default]
        simp only [hds2, List.length_map]
        omega
      rw [eq_comm, decide_eq_false_iff_not]
      rintro ⟨-, hnz⟩
      exact hnz hz
  · by_cases hi : i < obs.length
    · rw [buildRows_getD_lt model _ hi]
      show (flagRSD ds).getD i false = _
      rw [flagRSD_getD_lt ds (by simpa [hds2] using hi), if_neg (by simpa using hm)]
    · rw [buildRows_getD_ge model _ hi]
      rfl
  · by_cases hi : i < obs.length
    · rw [buildRows_getD_lt model _ hi] at hrsd ⊢
      show (flaggedList model ds).getD i false = true
      rw [flaggedList_getD_lt model ds (by simpa [hds2] using hi)]
      have hx : (flagRSD ds).getD i false = true := hrsd
      rw [hx]
      simp
    · rw [buildRows_getD_ge model _ hi] at hrsd
      cases hrsd

theorem C10_witness :
    mainPipeline constFalse rawAgg = .ok (rowsOf (mainPipeline constFalse rawAgg)) ∧
    ((rowsOf (mainPipeline constFalse rawAgg)).getD 6 blankRow).flagged = true :=
  ⟨rfl, (C10_rsd_characterization constFalse rawAgg
    (rowsOf (mainPipeline constFalse rawAgg)) rfl).2.2 6 (by decide)⟩

/-- C7: RATE_OF_CHANGE_OUTLIER holds at position `i` of the final annotated
sequence iff `i` has a predecessor, its discharge is non-zero, and the
absolute difference to the previous observation exceeds the 95th
percentile of the non-zero values; the first observation is always
unflagged. -/
theorem C7_roc_characterization (model : List ℚ → List Bool)
    (raw : List RawRecord) (rows : List FlagRow)
    (h : mainPipeline model raw = .ok rows) (i : ℕ) (hi : i < rows.length) :
    ((rows.getD i blankRow).roc = true ↔
      (i ≠ 0 ∧ (dsOf rows).getD i 0 ≠ 0 ∧
        quantileLinear (95 / 100) (nzOf rows) <
          |(dsOf rows).getD i 0 - (dsOf rows).getD (i - 1) 0|)) := by
  have hds : dsOf rows = (mainNormalize raw).map (·.discharge) := dsOf_pipeline h
  have hnz : nzOf rows = nonZero ((mainNormalize raw).map (·.discharge)) := by
    rw [nzOf, hds]
  obtain ⟨hr, -, -⟩ := mainPipeline_ok_elim h
  subst hr
  set obs := mainNormalize raw with hobs
  set ds := obs.map (·.discharge) with hds2
  rw [hds, hnz]
  have hi' : i < obs.length := by
    rw [length_buildRows] at hi
    exact hi
  rw [buildRows_getD_lt model _ hi']
  show (flagRoC ds).getD i false = true ↔ _
  rw [flagRoC_getD_lt ds (by simpa [hds2] using hi')]
  by_cases h0 : i = 0
  · subst h0
    simp
  · rw [if_neg h0, decide_eq_true_iff]
    constructor
    · rintro ⟨hp, hd⟩
      exact ⟨h0, hd, hp⟩
    · rintro ⟨-, hd, hp⟩
      exact ⟨hp, hd⟩

theorem C7_witness :
    mainPipeline constFalse rawRoC = .ok (rowsOf (mainPipeline constFalse rawRoC)) ∧
    ((rowsOf (mainPipeline constFalse rawRoC)).getD 2 blankRow).roc = true :=
  ⟨rfl, (C7_roc_characterization constFalse rawRoC
      (rowsOf (mainPipeline constFalse rawRoC)) rfl 2 (by decide)).mpr (by decide)⟩

/-- C6: for observations of the final annotated sequence, IQR_OUTLIER
holds on a non-zero discharge iff the discharge falls outside
`[Q1 - 1.5 IQR, Q3 + 1.5 IQR]` when `IQR > 0`, or differs from `Q1` when
`IQR = 0`, with `Q1, Q3` the linear-interpolation quartiles of the
non-zero subset; zero-valued observations are never flagged by this rule. -/
theorem C6_iqr_characterization (model : List ℚ → List Bool)
    (raw : List RawRecord) (rows : List FlagRow)
    (h : mainPipeline model raw = .ok rows) (i : ℕ) (hi : i < rows.length) :
    ((dsOf rows).getD i 0 = 0 → (rows.getD i blankRow).iqrOutlier = false) ∧
    ((dsOf rows).getD i 0 ≠ 0 →
      (0 < quantileLinear (75 / 100) (nzOf rows) - quantileLinear (25 / 100) (nzOf rows) →
        ((rows.getD i blankRow).iqrOutlier = true ↔
          ((dsOf rows).getD i 0 <
              quantileLinear (25 / 100) (nzOf rows) -
                3/2 * (quantileLinear (75 / 100) (nzOf rows) -
                  quantileLinear (25 / 100) (nzOf rows)) ∨
            quantileLinear (75 / 100) (nzOf rows) +
                3/2 * (quantileLinear (75 / 100) (nzOf rows) -
                  quantileLinear (25 / 100) (nzOf rows)) <
              (dsOf rows).getD i 0))) ∧
      (quantileLinear (75 / 100) (nzOf rows) - quantileLinear (25 / 100) (nzOf rows) = 0 →
        ((rows.getD i blankRow).iqrOutlier = true ↔
          (dsOf rows).getD i 0 ≠ quantileLinear (25 / 100) (nzOf rows)))) := by
  have hds : dsOf rows = (mainNormalize raw).map (·.discharge) := dsOf_pipeline h
  have hnz : nzOf rows = nonZero ((mainNormalize raw).map (·.discharge)) := by
    rw [nzOf, hds]
  obtain ⟨hr, -, -⟩ := mainPipeline_ok_elim h
  subst hr
  set obs := mainNormalize raw with hobs
  set ds := obs.map (·.discharge) with hds2
  rw [hds, hnz]
  have hi' : i < obs.length := by
    rw [length_buildRows] at hi
    exact hi
  rw [buildRows_getD_lt model _ hi']
  have hkey := flagIQR_getD_lt ds (i := i) (by simpa [hds2] using hi')
  refine ⟨fun hz => ?_, fun hd => ⟨fun hpos => ?_, fun hzero => ?_⟩⟩
  · show (flagIQR ds).getD i false = false
    rw [hkey]
    split <;>
      · rw [decide_eq_false_iff_not]
        rintro ⟨-, hnz0⟩
        exact hnz0 hz
  · show (flagIQR ds).getD i false = true ↔ _
    rw [hkey, if_pos hpos, decide_eq_true_iff]
    constructor
    · rintro ⟨hb, -⟩
      exact hb
    · intro hb
      exact ⟨hb, hd⟩
  · show (flagIQR ds).getD i false = true ↔ _
    rw [hkey, if_neg (by rw [hzero]; exact lt_irrefl 0), decide_eq_true_iff]
    constructor
    · rintro ⟨hb, -⟩
      exact hb
    · intro hb
      exact ⟨hb, hd⟩

theorem C6_witness :
    mainPipeline constFalse rawIQR = .ok (rowsOf (mainPipeline constFalse rawIQR)) ∧
    ((rowsOf (mainPipeline constFalse rawIQR)).getD 9 blankRow).iqrOutlier = true :=
  ⟨rfl, (((C6_iqr_characterization constFalse rawIQR
      (rowsOf (mainPipeline constFalse rawIQR)) rfl 9 (by decide)).2
        (by decide)).2 (by decide)).mpr (by decide)⟩

/-- C8: if the non-zero discharge subset has fewer than 2 distinct values
the outlier model is not fit and MODEL_OUTLIER is false for every
observation; otherwise the model is fit on the non-zero values only and
its decisions are scattered back by original position, so in particular
zero-valued observations are never flagged. -/
theorem C8_model_outlier (model : List ℚ → List Bool)
    (raw : List RawRecord) (rows : List FlagRow)
    (h : mainPipeline model raw = .ok rows) :
    ((nzOf rows).dedup.length < 2 →
        ∀ i : ℕ, (rows.getD i blankRow).modelOutlier = false) ∧
    (∀ i : ℕ, (dsOf rows).getD i 0 = 0 →
        (rows.getD i blankRow).modelOutlier = false) ∧
    (2 ≤ (nzOf rows).dedup.length →
        rows.map (·.modelOutlier) = scatterNZ (dsOf rows) (model (nzOf rows))) := by
  have hds : dsOf rows = (mainNormalize raw).map (·.discharge) := dsOf_pipeline h
  have hnzeq : nzOf rows = nonZero ((mainNormalize raw).map (·.discharge)) := by
    rw [nzOf, hds]
  obtain ⟨hr, -, hnzne⟩ := mainPipeline_ok_elim h
  subst hr
  set obs := mainNormalize raw with hobs
  set ds := obs.map (·.discharge) with hds2
  rw [hds, hnzeq]
  refine ⟨fun hlt i => ?_, fun i hz => ?_, fun hge => ?_⟩
  · have hout : outlierIF model ds = ds.map (fun _ => false) := by
      unfold outlierIF
      dsimp only
      rw [if_neg]
      rintro ⟨-, hgt⟩
      omega
    by_cases hi : i < obs.length
    · rw [buildRows_getD_lt model _ hi]
      show (outlierIF model ds).getD i false = false
      rw [hout]
      exact getD_const_false ds i
    · rw [buildRows_getD_ge model _ hi]
      rfl
  · by_cases hi : i < obs.length
    · rw [buildRows_getD_lt model _ hi]
      show (outlierIF model ds).getD i false = false
      unfold outlierIF
      dsimp only
      split
      · exact scatterNZ_getD_zero ds _ i hz
      · exact getD_const_false ds i
    · rw [buildRows_getD_ge model _ hi]
      rfl
  · rw [buildRows_map_modelOutlier]
    show outlierIF model ds = scatterNZ ds (model (nonZero ds))
    unfold outlierIF
    dsimp only
    rw [if_pos ⟨hnzne, by omega⟩]

theorem C8_witness :
    (nzOf (rowsOf (mainPipeline constFalse rawRuns))).dedup.length < 2 ∧
    ((rowsOf (mainPipeline constFalse rawRuns)).getD 0 blankRow).modelOutlier = false :=
  ⟨by decide, (C8_model_outlier constFalse rawRuns
      (rowsOf (mainPipeline constFalse rawRuns)) rfl).1 (by decide) 0⟩

theorem C1_witness :
    mainPipeline constFalse rawAgg = .ok (rowsOf (mainPipeline constFalse rawAgg)) ∧
    ((rowsOf (mainPipeline constFalse rawAgg)).getD 6 blankRow).flagged =
      (((rowsOf (mainPipeline constFalse rawAgg)).getD 6 blankRow).negative ||
       ((rowsOf (mainPipeline constFalse rawAgg)).getD 6 blankRow).zero ||
       ((rowsOf (mainPipeline constFalse rawAgg)).getD 6 blankRow).repeated ||
       ((rowsOf (mainPipeline constFalse rawAgg)).getD 6 blankRow).iqrOutlier ||
       ((rowsOf (mainPipeline constFalse rawAgg)).getD 6 blankRow).modelOutlier ||
       ((rowsOf (mainPipeline constFalse rawAgg)).getD 6 blankRow).above95 ||
       ((rowsOf (mainPipeline constFalse rawAgg)).getD 6 blankRow).roc ||
       ((rowsOf (mainPipeline constFalse rawAgg)).getD 6 blankRow).rsd) :=
  ⟨rfl, C1_flagged_or_of_eight constFalse rawAgg (rowsOf (mainPipeline constFalse rawAgg)) rfl 6⟩

/-!
Machinery for the repeated-run claim: the code's cumulative-sum group ids
with per-group sizes coincide with per-element maximal-run-length flags.
-/

theorem groupIdsAux_shift (xs : List ℚ) : ∀ (prev : ℚ) (a b : ℕ),
    groupIdsAux prev (a + b) xs = (groupIdsAux prev a xs).map (· + b) := by
  induction xs with
  | nil => intro prev a b; rfl
  | cons x xs ih =>
    intro prev a b
    unfold groupIdsAux
    dsimp only
    by_cases hx : x = prev
    · rw [if_pos hx, if_pos hx, List.map_cons, ih]
    · rw [if_neg hx, if_neg hx, List.map_cons]
      have hg : a + b + 1 = (a + 1) + b := by omega
      rw [hg, ih]

theorem groupIdsAux_start (rest : List ℚ) (v : ℚ) (h : rest.head? ≠ some v) :
    groupIdsAux v 1 rest = (groupIds rest).map (· + 1) := by
  cases rest with
  | nil => rfl
  | cons x xs =>
    have hx : x ≠ v := fun he => h (by simp [he])
    unfold groupIdsAux groupIds
    dsimp only
    rw [if_neg hx, List.map_cons]
    rw [show groupIdsAux x (1 + 1) xs = (groupIdsAux x 1 xs).map (· + 1) from
      groupIdsAux_shift xs x 1 1]

theorem groupIdsAux_replicate (k : ℕ) (v : ℚ) (rest : List ℚ)
    (h : rest.head? ≠ some v) :
    groupIdsAux v 1 (List.replicate k v ++ rest) =
      List.replicate k 1 ++ (groupIds rest).map (· + 1) := by
  induction k with
  | zero => simpa using groupIdsAux_start rest v h
  | succ k ih =>
    rw [List.replicate_succ, List.cons_append]
    unfold groupIdsAux
    dsimp only
    rw [if_pos rfl, ih]
    rw [show List.replicate (k + 1) 1 = 1 :: List.replicate k 1 from List.replicate_succ 1 k,
      List.cons_append]

theorem groupIds_replicate_append (k : ℕ) (v : ℚ) (rest : List ℚ)
    (h : rest.head? ≠ some v) :
    groupIds (List.replicate (k + 1) v ++ rest) =
      List.replicate (k + 1) 1 ++ (groupIds rest).map (· + 1) := by
  rw [List.replicate_succ, List.cons_append]
  show 1 :: groupIdsAux v 1 (List.replicate k v ++ rest) = _
  rw [groupIdsAux_replicate k v rest h,
    show List.replicate (k + 1) 1 = 1 :: List.replicate k 1 from List.replicate_succ 1 k,
    List.cons_append]

theorem groupIdsAux_le (xs : List ℚ) : ∀ (prev : ℚ) (a : ℕ), ∀ g ∈ groupIdsAux prev a xs, a ≤ g := by
  induction xs with
  | nil => intro prev a g hg; simp [groupIdsAux] at hg
  | cons x xs ih =>
    intro prev a g hg
    unfold groupIdsAux at hg
    dsimp only at hg
    rcases List.mem_cons.mp hg with rfl | hg2
    · split <;> omega
    · have := ih x (if x = prev then a else a + 1) g hg2
      split at this <;> omega

theorem groupIds_pos (es : List ℚ) : ∀ g ∈ groupIds es, 1 ≤ g := by
  cases es with
  | nil => simp [groupIds]
  | cons x xs =>
    intro g hg
    unfold groupIds at hg
    rcases List.mem_cons.mp hg with rfl | hg2
    · exact le_refl 1
    · exact groupIdsAux_le xs x 1 g hg2

theorem rle_head (x : ℚ) (xs : List ℚ) : ∃ k tl, rle (x :: xs) = (x, k) :: tl := by
  show ∃ k tl, rleCons x (rle xs) = (x, k) :: tl
  rcases rle xs with - | ⟨⟨y, k⟩, rest⟩
  · exact ⟨1, [], rfl⟩
  · by_cases hxy : x = y
    · exact ⟨k + 1, rest, by simp [rleCons, hxy]⟩
    · exact ⟨1, (y, k) :: rest, by simp [rleCons, hxy]⟩

theorem rle_replicate_append (k : ℕ) (v : ℚ) (rest : List ℚ)
    (h : rest.head? ≠ some v) :
    rle (List.replicate (k + 1) v ++ rest) = (v, k + 1) :: rle rest := by
  induction k with
  | zero =>
    show rleCons v (rle rest) = (v, 1) :: rle rest
    cases rest with
    | nil => rfl
    | cons x xs =>
      have hx : x ≠ v := fun he => h (by simp [he])
      obtain ⟨k2, tl, hr⟩ := rle_head x xs
      rw [hr, rleCons, if_neg (Ne.symm hx)]
  | succ k ih =>
    rw [List.replicate_succ, List.cons_append]
    show rleCons v (rle (List.replicate (k + 1) v ++ rest)) = _
    rw [ih, rleCons, if_pos rfl]

theorem count_first_group (K : ℕ) (G : List ℕ) (hG : ∀ g ∈ G, 1 ≤ g) :
    (List.replicate K 1 ++ G.map (· + 1)).count 1 = K := by
  rw [List.count_append, List.count_replicate]
  have h0 : (G.map (· + 1)).count 1 = 0 := by
    rw [List.count_eq_zero]
    intro hmem
    obtain ⟨g, hg, hg1⟩ := List.mem_map.mp hmem
    have := hG g hg
    omega
  simp [h0]

theorem count_later_group (K : ℕ) (G : List ℕ) (g : ℕ) (hg : 1 ≤ g) :
    (List.replicate K 1 ++ G.map (· + 1)).count (g + 1) = G.count g := by
  rw [List.count_append, List.count_replicate]
  have hne : ¬ ((1 : ℕ) == g + 1) = true := by
    simp
    omega
  rw [if_neg hne]
  have hinj : Function.Injective (fun n : ℕ => n + 1) := fun a b hab => by simpa using hab
  simpa using List.count_map_of_injective G (fun n => n + 1) hinj g

theorem dropWhile_head_false (p : ℚ → Bool) (l : List ℚ) :
    ∀ x xs, l.dropWhile p = x :: xs → p x = false := by
  induction l with
  | nil => intro x xs h; simp [List.dropWhile] at h
  | cons y ys ih =>
    intro x xs h
    rw [List.dropWhile_cons] at h
    split at h
    · exact ih x xs h
    · injection h with h1 h2
      subst h1
      rename_i hpy
      simpa using hpy

theorem gflags_eq_runFlags (es : List ℚ) : gflags es = runFlags es := by
  generalize hn : es.length = n
  induction n using Nat.strong_induction_on generalizing es with
  | _ n ih =>
    cases es with
    | nil => rfl
    | cons v tl =>
      have htl : tl.takeWhile (fun x => decide (x = v)) ++
          tl.dropWhile (fun x => decide (x = v)) = tl :=
        List.takeWhile_append_dropWhile (fun x => decide (x = v)) tl
      have htv : tl.takeWhile (fun x => decide (x = v)) =
          List.replicate (tl.takeWhile (fun x => decide (x = v))).length v :=
        List.eq_replicate_length.mpr (fun b hb => by simpa using List.mem_takeWhile_imp hb)
      have hhead : (tl.dropWhile (fun x => decide (x = v))).head? ≠ some v := by
        cases hr : tl.dropWhile (fun x => decide (x = v)) with
        | nil => simp
        | cons x xs =>
          have := dropWhile_head_false (fun x => decide (x = v)) tl x xs hr
          simp only [List.head?_cons, ne_eq, Option.some.injEq]
          intro he
          rw [he] at this
          simp at this
      have hES : v :: tl =
          List.replicate ((tl.takeWhile (fun x => decide (x = v))).length + 1) v ++
            tl.dropWhile (fun x => decide (x = v)) := by
        conv_lhs => rw [← htl]
        rw [List.replicate_succ, List.cons_append]
        congr 1
        rw [← htv]
      have hlenrest : (tl.dropWhile (fun x => decide (x = v))).length < n := by
        have : (tl.takeWhile (fun x => decide (x = v))).length +
            (tl.dropWhile (fun x => decide (x = v))).length = tl.length := by
          rw [← List.length_append, htl]
        simp only [List.length_cons] at hn
        omega
      have hrec := ih _ hlenrest (tl.dropWhile (fun x => decide (x = v))) rfl
      set K := (tl.takeWhile (fun x => decide (x = v))).length + 1 with hK
      set rest := tl.dropWhile (fun x => decide (x = v)) with hrest
      rw [hES]
      have hG := groupIds_replicate_append (K - 1) v rest hhead
      have hR := rle_replicate_append (K - 1) v rest hhead
      have hK1 : K - 1 + 1 = K := by omega
      rw [hK1] at hG hR
      rw [gflags, hG, runFlags, hR]
      rw [List.map_append, List.map_replicate, List.map_map, List.flatMap_cons]
      have hposG := groupIds_pos rest
      have hc1 : (List.replicate K 1 ++ (groupIds rest).map (· + 1)).count 1 = K :=
        count_first_group K (groupIds rest) hposG
      congr 1
      · rw [hc1]
      · refine Eq.trans ?_ hrec
        rw [gflags]
        refine List.map_congr_left (fun g hg => ?_)
        simp only [Function.comp_def]
        rw [count_later_group K (groupIds rest) g (hposG g hg)]

theorem flagRepeatedMain_eq_runFlags (ds : List ℚ) :
    flagRepeatedMain ds = scatterNZ ds (runFlags (nonZero ds)) := by
  unfold flagRepeatedMain
  dsimp only
  split
  · rename_i hnil
    rw [hnil]
    show ds.map (fun _ => false) = scatterNZ ds (runFlags [])
    rw [show runFlags [] = [] from rfl, scatterNZ_nil_flags]
  · exact congrArg (scatterNZ ds) (gflags_eq_runFlags (nonZero ds))

/-- C2 (amended): in the later iteration the run detector works on the
zero-removed sub-series: REPEATED_RUN is true exactly for the non-zero
observations lying (at their rank among non-zero observations) in a
maximal run of consecutive equal values OF THE ZERO-REMOVED SUBSEQUENCE of
length at least 3, so two equal non-zero values separated only by zeros DO
belong to the same run; zero observations are never flagged. -/
theorem C2_repeated_subsequence_runs (model : List ℚ → List Bool)
    (raw : List RawRecord) (rows : List FlagRow)
    (h : mainPipeline model raw = .ok rows) :
    rows.map (·.repeated) = scatterNZ (dsOf rows) (runFlags (nzOf rows)) ∧
    ∀ i : ℕ, (dsOf rows).getD i 0 = 0 → (rows.getD i blankRow).repeated = false := by
  have hds : dsOf rows = (mainNormalize raw).map (·.discharge) := dsOf_pipeline h
  have hnzeq : nzOf rows = nonZero ((mainNormalize raw).map (·.discharge)) := by
    rw [nzOf, hds]
  obtain ⟨hr, -, -⟩ := mainPipeline_ok_elim h
  subst hr
  set obs := mainNormalize raw with hobs
  set ds := obs.map (·.discharge) with hds2
  rw [hds, hnzeq]
  constructor
  · rw [buildRows_map_repeated]
    exact flagRepeatedMain_eq_runFlags ds
  · intro i hz
    by_cases hi : i < obs.length
    · rw [buildRows_getD_lt model _ hi]
      show (flagRepeatedMain ds).getD i false = false
      rw [flagRepeatedMain_eq_runFlags ds]
      exact scatterNZ_getD_zero ds _ i hz
    · rw [buildRows_getD_ge model _ hi]
      rfl

/-- C2 (counterexample): at discharges `[5, 0, 5, 5]` the pipeline flags
positions 0, 2 and 3 as REPEATED_RUN - the zero does not break the run -
whereas the claimed zero-breaking rule flags nothing. -/
theorem C2_counterexample :
    (rowsOf (mainPipeline constFalse rawRuns)).map (·.repeated) ≠
      zeroBreakRepeated (dsOf (rowsOf (mainPipeline constFalse rawRuns))) ∧
    (rowsOf (mainPipeline constFalse rawRuns)).map (·.repeated) =
      [true, false, true, true] ∧
    zeroBreakRepeated [5, 0, 5, 5] = [false, false, false, false] := by
  decide

theorem C2_witness :
    mainPipeline constFalse rawRuns = .ok (rowsOf (mainPipeline constFalse rawRuns)) ∧
    (rowsOf (mainPipeline constFalse rawRuns)).map (·.repeated) =
      scatterNZ (dsOf (rowsOf (mainPipeline constFalse rawRuns)))
        (runFlags (nzOf (rowsOf (mainPipeline constFalse rawRuns)))) :=
  ⟨rfl, (C2_repeated_subsequence_runs constFalse rawRuns
      (rowsOf (mainPipeline constFalse rawRuns)) rfl).1⟩

/-!
Machinery for the normalization claim: stability analysis of the
`sort_values` model.  For at most 16 retained rows numpy's introsort is
exactly its stable insertion sort, which coincides with the unique
`lexLe`-sorted permutation; with 17 or more rows the partitioning step can
reorder equal keys (see the counterexample).
-/

theorem lexLe_key_le {keys : List ℚ} {i j : ℕ} (h : lexLe keys i j) :
    keys.getD i 0 ≤ keys.getD j 0 := by
  rcases h with h | ⟨h, -⟩
  · exact le_of_lt h
  · exact le_of_eq h

theorem insertLE_spec (keys : List ℚ) (x : ℕ) (acc : List ℕ)
    (hs : List.Sorted (lexLe keys) acc) (hlt : ∀ y ∈ acc, y < x) :
    List.Sorted (lexLe keys) (insertLE keys x acc) ∧
      (insertLE keys x acc).Perm (x :: acc) := by
  induction acc with
  | nil => exact ⟨List.sorted_singleton x, List.Perm.refl _⟩
  | cons y ys ih =>
    have hys : List.Sorted (lexLe keys) ys := hs.of_cons
    have hrel : ∀ b ∈ ys, lexLe keys y b := List.rel_of_sorted_cons hs
    unfold insertLE
    by_cases hk : keys.getD y 0 ≤ keys.getD x 0
    · rw [if_pos hk]
      obtain ⟨hs2, hp2⟩ := ih hys (fun z hz => hlt z (List.mem_cons_of_mem y hz))
      have hyx : lexLe keys y x := by
        rcases lt_or_eq_of_le hk with h | h
        · exact Or.inl h
        · exact Or.inr ⟨h, le_of_lt (hlt y (List.mem_cons_self y ys))⟩
      refine ⟨List.sorted_cons.mpr ⟨fun b hb => ?_, hs2⟩, ?_⟩
      · rcases List.mem_cons.mp (hp2.mem_iff.mp hb) with rfl | hb2
        · exact hyx
        · exact hrel b hb2
      · exact (hp2.cons y).trans (List.Perm.swap x y ys)
    · rw [if_neg hk]
      have hxy : keys.getD x 0 < keys.getD y 0 := lt_of_not_le hk
      refine ⟨List.sorted_cons.mpr ⟨fun b hb => ?_, hs⟩, List.Perm.refl _⟩
      rcases List.mem_cons.mp hb with rfl | hb2
      · exact Or.inl hxy
      · exact Or.inl (lt_of_lt_of_le hxy (lexLe_key_le (hrel b hb2)))

theorem foldl_insertLE_spec (keys : List ℚ) : ∀ (l acc : List ℕ),
    List.Sorted (· < ·) l → List.Sorted (lexLe keys) acc →
    (∀ y ∈ acc, ∀ x ∈ l, y < x) →
    List.Sorted (lexLe keys) (l.foldl (fun a x => insertLE keys x a) acc) ∧
      (l.foldl (fun a x => insertLE keys x a) acc).Perm (acc ++ l) := by
  intro l
  induction l with
  | nil =>
    intro acc _ hacc _
    refine ⟨hacc, ?_⟩
    simp
  | cons x xs ih =>
    intro acc hl hacc hcross
    have hins := insertLE_spec keys x acc hacc
      (fun y hy => hcross y hy x (List.mem_cons_self x xs))
    have hrelx : ∀ z ∈ xs, x < z := List.rel_of_sorted_cons hl
    have hstep := ih (insertLE keys x acc) hl.of_cons hins.1 (fun y hy z hz => by
      rcases List.mem_cons.mp (hins.2.mem_iff.mp hy) with rfl | hy2
      · exact hrelx z hz
      · exact hcross y hy2 z (List.mem_cons_of_mem x hz))
    refine ⟨hstep.1, ?_⟩
    have h1 : (insertLE keys x acc ++ xs).Perm ((x :: acc) ++ xs) :=
      hins.2.append_right xs
    have h2 : ((x :: acc) ++ xs) = x :: (acc ++ xs) := rfl
    have h3 : (acc ++ x :: xs).Perm (x :: (acc ++ xs)) := List.perm_middle
    exact hstep.2.trans (h1.trans (h2 ▸ h3.symm))

theorem insertionArgsort_eq_insertionSort (keys : List ℚ) (l : List ℕ)
    (hl : List.Sorted (· < ·) l) :
    insertionArgsortList keys l = List.insertionSort (lexLe keys) l := by
  obtain ⟨hs, hp⟩ := foldl_insertLE_spec keys l [] hl List.sorted_nil (by simp)
  have hp2 : (insertionArgsortList keys l).Perm l := by simpa using hp
  have hq : (List.insertionSort (lexLe keys) l).Perm l := List.perm_insertionSort _ l
  exact List.eq_of_perm_of_sorted (hp2.trans hq.symm) hs
    (List.sorted_insertionSort (lexLe keys) l)

theorem qsLoop_small (keys : List ℚ) (f : ℕ) (arr : List ℕ) (pl pr : ℕ) (d : ℤ)
    (h : pr - pl ≤ 15) :
    qsLoop keys (f + 1) arr pl pr d = insertionSeg keys arr pl pr := by
  unfold qsLoop
  rw [if_neg (by omega)]

theorem npArgsort_small (keys : List ℚ) (h : keys.length ≤ 16) :
    npArgsort keys = stableArgsort keys := by
  unfold npArgsort stableArgsort
  dsimp only
  by_cases h0 : keys.length = 0
  · rw [if_pos h0, h0]
    rfl
  · rw [if_neg h0]
    have hf : keys.length + 17 = (keys.length + 16) + 1 := by omega
    rw [hf, qsLoop_small keys (keys.length + 16) (List.range keys.length) 0
      (keys.length - 1) (2 * (msb keys.length : ℕ) : ℤ) (by omega)]
    unfold insertionSeg
    rw [if_neg (by
      push_neg
      constructor
      · omega
      · rw [List.length_range]
        omega)]
    have hdrop0 : (List.range keys.length).drop 0 = List.range keys.length := rfl
    have htake : ((List.range keys.length).drop 0).take (keys.length - 1 - 0 + 1) =
        List.range keys.length := by
      rw [hdrop0, List.take_of_length_le]
      rw [List.length_range]
      omega
    have hdrop : (List.range keys.length).drop (keys.length - 1 + 1) = [] := by
      rw [List.drop_eq_nil_iff]
      rw [List.length_range]
      omega
    rw [htake, hdrop]
    dsimp only
    simp only [List.take_zero, List.nil_append, List.append_nil]
    exact insertionArgsort_eq_insertionSort keys (List.range keys.length)
      (List.sorted_lt_range keys.length)

theorem retained_parsed_filter (raw : List RawRecord) :
    retained (raw.filter (fun r => r.date?.isSome && r.value?.isSome)) = retained raw := by
  induction raw with
  | nil => rfl
  | cons r raws ih =>
    rcases r with ⟨d?, v?⟩
    cases d? <;> cases v? <;> simp [retained, List.filter_cons, ih] <;>
      simpa [retained] using ih

theorem retained_date_getD {raw : List RawRecord} {i : ℕ} {o : Obs}
    (h : (retained raw)[i]? = some o) :
    ((retained raw).map (·.date)).getD i 0 = o.date := by
  rw [List.getD_eq_getElem?_getD, List.getElem?_map, h]
  rfl

theorem specNormalize_sorted (raw : List RawRecord) :
    List.Sorted (fun a b : Obs => a.date ≤ b.date) (specNormalize raw) := by
  unfold specNormalize
  dsimp only
  rw [List.Sorted, List.pairwise_filterMap]
  have hs : List.Sorted (lexLe ((retained raw).map (·.date))) (stableArgsort ((retained raw).map (·.date))) :=
    List.sorted_insertionSort _ _
  refine hs.imp ?_
  intro i j hij o1 h1 o2 h2
  have hk := lexLe_key_le hij
  rw [retained_date_getD h1, retained_date_getD h2] at hk
  exact hk

/-!
Full correctness of the `sort_values` model: the introsort argsort is a
permutation of the index range and arranges keys in ascending order, for
every input length.  The development is segment-local: every phase of the
algorithm only touches the positions of its segment, permutes the index
list globally, and leaves its segment key-sorted.
-/

theorem getD_set_self (l : List ℕ) {i : ℕ} (hi : i < l.length) (v : ℕ) :
    (l.set i v).getD i 0 = v := by
  rw [List.getD_eq_getElem?_getD, List.getElem?_set_self (by simpa using hi)]
  rfl

theorem getD_set_ne (l : List ℕ) {i j : ℕ} (h : i ≠ j) (v : ℕ) :
    (l.set i v).getD j 0 = l.getD j 0 := by
  rw [List.getD_eq_getElem?_getD, List.getElem?_set_ne h, ← List.getD_eq_getElem?_getD]

theorem count_set_add (l : List ℕ) : ∀ (i : ℕ), i < l.length → ∀ (v x : ℕ),
    (l.set i v).count x + (if l.getD i 0 = x then 1 else 0) =
      l.count x + (if v = x then 1 else 0) := by
  induction l with
  | nil => intro i hi; simp at hi
  | cons a l ih =>
    intro i hi v x
    cases i with
    | zero =>
      simp only [List.set_cons_zero, List.getD_cons_zero, List.count_cons, beq_iff_eq]
      split_ifs <;> omega
    | succ i =>
      have hi' : i < l.length := by simpa using hi
      simp only [List.set_cons_succ, List.getD_cons_succ, List.count_cons, beq_iff_eq]
      have hx := ih i hi' v x
      split_ifs at hx ⊢ <;> omega

theorem lswap_length (a : List ℕ) (i j : ℕ) : (lswap a i j).length = a.length := by
  simp [lswap]

theorem lswap_getD_fst (a : List ℕ) {i j : ℕ} (hi : i < a.length) (hj : j < a.length) :
    (lswap a i j).getD i 0 = a.getD j 0 := by
  unfold lswap
  dsimp only
  by_cases hij : i = j
  · subst hij
    exact getD_set_self _ (by simpa using hi) _
  · rw [getD_set_ne _ (Ne.symm hij), getD_set_self _ hi]

theorem lswap_getD_snd (a : List ℕ) {i j : ℕ} (hi : i < a.length) (hj : j < a.length) :
    (lswap a i j).getD j 0 = a.getD i 0 := by
  unfold lswap
  dsimp only
  exact getD_set_self _ (by simpa using hj) _

theorem lswap_getD_other (a : List ℕ) {i j t : ℕ} (hti : t ≠ i) (htj : t ≠ j) :
    (lswap a i j).getD t 0 = a.getD t 0 := by
  unfold lswap
  dsimp only
  rw [getD_set_ne _ (Ne.symm htj), getD_set_ne _ (Ne.symm hti)]

theorem lswap_perm (a : List ℕ) {i j : ℕ} (hi : i < a.length) (hj : j < a.length) :
    (lswap a i j).Perm a := by
  unfold lswap
  dsimp only
  rw [List.perm_iff_count]
  intro x
  have h1 := count_set_add a i hi (a.getD j 0) x
  have h2 := count_set_add (a.set i (a.getD j 0)) j (by simpa using hj) (a.getD i 0) x
  by_cases hij : i = j
  · subst hij
    rw [getD_set_self _ hi] at h2
    omega
  · rw [getD_set_ne _ hij] at h2
    omega

/-- The slice of positions `[pl, pr]` (inclusive) of an index list. -/
def sliceSeg (a : List ℕ) (pl pr : ℕ) : List ℕ :=
  (a.drop pl).take (pr + 1 - pl)

theorem sliceSeg_length (a : List ℕ) {pl pr : ℕ} (hpr : pr < a.length) :
    (sliceSeg a pl pr).length = pr + 1 - pl := by
  simp only [sliceSeg, List.length_take, List.length_drop]
  omega

theorem sliceSeg_getD (a : List ℕ) {pl pr t : ℕ} (ht : t < pr + 1 - pl)
    (hpr : pr < a.length) :
    (sliceSeg a pl pr).getD t 0 = a.getD (pl + t) 0 := by
  have h1 : t < (sliceSeg a pl pr).length := by rw [sliceSeg_length a hpr]; omega
  rw [List.getD_eq_getElem?_getD, sliceSeg, List.getElem?_take, if_pos ht, List.getElem?_drop,
    ← List.getD_eq_getElem?_getD]

theorem eq_of_length_getD (a b : List ℕ) (hlen : a.length = b.length)
    (h : ∀ t, t < a.length → a.getD t 0 = b.getD t 0) : a = b := by
  apply List.ext_getElem?
  intro t
  by_cases ht : t < a.length
  · rw [List.getElem?_eq_getElem ht, List.getElem?_eq_getElem (hlen ▸ ht)]
    have := h t ht
    rw [List.getD_eq_getElem?_getD, List.getD_eq_getElem?_getD,
      List.getElem?_eq_getElem ht, List.getElem?_eq_getElem (hlen ▸ ht)] at this
    simpa using this
  · rw [List.getElem?_eq_none (by omega), List.getElem?_eq_none (by omega)]

theorem decomp_slice (a : List ℕ) (pl pr : ℕ) (hpl : pl ≤ pr + 1) (hpr : pr < a.length) :
    a = a.take pl ++ sliceSeg a pl pr ++ a.drop (pr + 1) := by
  rw [sliceSeg]
  have h1 : (a.drop pl).take (pr + 1 - pl) ++ a.drop (pr + 1) = a.drop pl := by
    have h2 : a.drop (pr + 1) = (a.drop pl).drop (pr + 1 - pl) := by
      rw [List.drop_drop]
      congr 1
      omega
    rw [h2, List.take_append_drop]
  rw [List.append_assoc, h1, List.take_append_drop]

theorem mem_sliceSeg {a : List ℕ} {pl pr : ℕ} (hpr : pr < a.length) {x : ℕ} :
    x ∈ sliceSeg a pl pr ↔ ∃ t, pl ≤ t ∧ t ≤ pr ∧ a.getD t 0 = x := by
  constructor
  · intro hx
    obtain ⟨u, hu, hux⟩ := List.getElem_of_mem hx
    have hu' : u < pr + 1 - pl := by
      have := hu
      rw [sliceSeg_length a hpr] at this
      omega
    refine ⟨pl + u, by omega, by omega, ?_⟩
    rw [← sliceSeg_getD a hu' hpr, List.getD_eq_getElem?_getD, List.getElem?_eq_getElem hu, hux]
    rfl
  · rintro ⟨t, h1, h2, h3⟩
    have ht : t - pl < pr + 1 - pl := by omega
    have := sliceSeg_getD a ht hpr
    rw [show pl + (t - pl) = t by omega, h3] at this
    rw [← this]
    have hlt : t - pl < (sliceSeg a pl pr).length := by rw [sliceSeg_length a hpr]; omega
    rw [List.getD_eq_getElem?_getD, List.getElem?_eq_getElem hlt]
    exact List.getElem_mem hlt

/-- A segment-local operation: length preserved, positions outside
`[pl, pr]` untouched, and the whole index list permuted. -/
def SegOp (a b : List ℕ) (pl pr : ℕ) : Prop :=
  b.length = a.length ∧ (∀ t, t < pl ∨ pr < t → b.getD t 0 = a.getD t 0) ∧ b.Perm a

theorem segOp_refl (a : List ℕ) (pl pr : ℕ) : SegOp a a pl pr :=
  ⟨rfl, fun _ _ => rfl, List.Perm.refl a⟩

theorem segOp_trans {a b c : List ℕ} {pl pr : ℕ} (h1 : SegOp a b pl pr)
    (h2 : SegOp b c pl pr) : SegOp a c pl pr :=
  ⟨h2.1.trans h1.1, fun t ht => (h2.2.1 t ht).trans (h1.2.1 t ht), h2.2.2.trans h1.2.2⟩

theorem segOp_mono {a b : List ℕ} {pl pr pl2 pr2 : ℕ} (hl : pl ≤ pl2) (hr : pr2 ≤ pr)
    (h : SegOp a b pl2 pr2) : SegOp a b pl pr :=
  ⟨h.1, fun t ht => h.2.1 t (by omega), h.2.2⟩

theorem getD_append_cases (xs ys : List ℕ) (t : ℕ) :
    (xs ++ ys).getD t 0 = if t < xs.length then xs.getD t 0 else ys.getD (t - xs.length) 0 := by
  split
  · rename_i hcase
    rw [List.getD_eq_getElem?_getD, List.getElem?_append_left hcase, ← List.getD_eq_getElem?_getD]
  · rename_i hcase
    rw [List.getD_eq_getElem?_getD, List.getElem?_append_right (by omega),
      ← List.getD_eq_getElem?_getD]

theorem count_append_three (p s d : List ℕ) (x : ℕ) :
    (p ++ s ++ d).count x = p.count x + s.count x + d.count x := by
  rw [List.count_append, List.count_append]

theorem segOp_slice_perm {a b : List ℕ} {pl pr : ℕ} (h : SegOp a b pl pr)
    (hpl : pl ≤ pr + 1) (hpr : pr < a.length) :
    (sliceSeg b pl pr).Perm (sliceSeg a pl pr) := by
  have hprb : pr < b.length := by rw [h.1]; exact hpr
  have hda : a = a.take pl ++ sliceSeg a pl pr ++ a.drop (pr + 1) := decomp_slice a pl pr hpl hpr
  have hdb : b = b.take pl ++ sliceSeg b pl pr ++ b.drop (pr + 1) := decomp_slice b pl pr hpl hprb
  have htake : b.take pl = a.take pl := by
    apply eq_of_length_getD
    · simp only [List.length_take, h.1]
    · intro t ht
      simp only [List.length_take] at ht
      rw [List.getD_eq_getElem?_getD, List.getD_eq_getElem?_getD,
        List.getElem?_take, List.getElem?_take, if_pos (by omega), if_pos (by omega),
        ← List.getD_eq_getElem?_getD, ← List.getD_eq_getElem?_getD]
      exact h.2.1 t (Or.inl (by omega))
  have hdrop : b.drop (pr + 1) = a.drop (pr + 1) := by
    apply eq_of_length_getD
    · simp only [List.length_drop, h.1]
    · intro t ht
      rw [List.getD_eq_getElem?_getD, List.getD_eq_getElem?_getD,
        List.getElem?_drop, List.getElem?_drop,
        ← List.getD_eq_getElem?_getD, ← List.getD_eq_getElem?_getD]
      exact h.2.1 (pr + 1 + t) (Or.inr (by omega))
  rw [List.perm_iff_count]
  intro x
  have hca := congrArg (List.count x) hda
  have hcb := congrArg (List.count x) hdb
  rw [count_append_three] at hca hcb
  have hperm := (List.perm_iff_count.mp h.2.2) x
  rw [htake, hdrop] at hcb
  omega

theorem segOp_bound_le {keys : List ℚ} {a b : List ℕ} {pl pr : ℕ} (h : SegOp a b pl pr)
    (hpl : pl ≤ pr + 1) (hpr : pr < a.length) {v : ℚ}
    (hb : ∀ t, pl ≤ t → t ≤ pr → keyAt keys a t ≤ v) :
    ∀ t, pl ≤ t → t ≤ pr → keyAt keys b t ≤ v := by
  intro t h1 h2
  have hprb : pr < b.length := by rw [h.1]; exact hpr
  have hmem : b.getD t 0 ∈ sliceSeg b pl pr := (mem_sliceSeg hprb).mpr ⟨t, h1, h2, rfl⟩
  have hmem2 : b.getD t 0 ∈ sliceSeg a pl pr := (segOp_slice_perm h hpl hpr).mem_iff.mp hmem
  obtain ⟨u, hu1, hu2, hu3⟩ := (mem_sliceSeg hpr).mp hmem2
  have := hb u hu1 hu2
  unfold keyAt at this ⊢
  rw [hu3] at this
  exact this

theorem segOp_bound_ge {keys : List ℚ} {a b : List ℕ} {pl pr : ℕ} (h : SegOp a b pl pr)
    (hpl : pl ≤ pr + 1) (hpr : pr < a.length) {v : ℚ}
    (hb : ∀ t, pl ≤ t → t ≤ pr → v ≤ keyAt keys a t) :
    ∀ t, pl ≤ t → t ≤ pr → v ≤ keyAt keys b t := by
  intro t h1 h2
  have hprb : pr < b.length := by rw [h.1]; exact hpr
  have hmem : b.getD t 0 ∈ sliceSeg b pl pr := (mem_sliceSeg hprb).mpr ⟨t, h1, h2, rfl⟩
  have hmem2 : b.getD t 0 ∈ sliceSeg a pl pr := (segOp_slice_perm h hpl hpr).mem_iff.mp hmem
  obtain ⟨u, hu1, hu2, hu3⟩ := (mem_sliceSeg hpr).mp hmem2
  have := hb u hu1 hu2
  unfold keyAt at this ⊢
  rw [hu3] at this
  exact this

/-- Keys ascending along the positions `[pl, pr]`. -/
def SortedSeg (keys : List ℚ) (a : List ℕ) (pl pr : ℕ) : Prop :=
  List.Sorted (fun x y => keys.getD x 0 ≤ keys.getD y 0) (sliceSeg a pl pr)

theorem sortedSeg_of_empty {keys : List ℚ} {a : List ℕ} {pl pr : ℕ} (h : pr + 1 ≤ pl) :
    SortedSeg keys a pl pr := by
  unfold SortedSeg sliceSeg
  rw [show pr + 1 - pl = 0 from by omega, List.take_zero]
  exact List.sorted_nil

theorem sliceSeg_concat (a : List ℕ) {pl p pr : ℕ} (h1 : pl < p) (h2 : p ≤ pr + 1)
    (hpr : pr < a.length) :
    sliceSeg a pl pr = sliceSeg a pl (p - 1) ++ sliceSeg a p pr := by
  apply eq_of_length_getD
  · rw [sliceSeg_length a hpr]
    rw [List.length_append, sliceSeg_length a (by omega), sliceSeg_length a hpr]
    omega
  · intro t ht
    rw [sliceSeg_length a hpr] at ht
    rw [sliceSeg_getD a (by omega) hpr, getD_append_cases]
    rw [sliceSeg_length a (show p - 1 < a.length by omega)]
    split
    · rename_i hcase
      rw [sliceSeg_getD a (by omega) (show p - 1 < a.length by omega)]
    · rename_i hcase
      rw [sliceSeg_getD a (by omega) hpr]
      congr 1
      omega

theorem sliceSeg_cons (a : List ℕ) {p pr : ℕ} (h : p ≤ pr) (hpr : pr < a.length) :
    sliceSeg a p pr = a.getD p 0 :: sliceSeg a (p + 1) pr := by
  apply eq_of_length_getD
  · rw [sliceSeg_length a hpr, List.length_cons, sliceSeg_length a hpr]
    omega
  · intro t ht
    rw [sliceSeg_length a hpr] at ht
    rw [sliceSeg_getD a (by omega) hpr]
    cases t with
    | zero => simp
    | succ t =>
      rw [List.getD_cons_succ, sliceSeg_getD a (by omega) hpr]
      congr 1
      omega

theorem lswap_segOp {a : List ℕ} {i j pl pr : ℕ} (hi1 : pl ≤ i) (hi2 : i ≤ pr)
    (hj1 : pl ≤ j) (hj2 : j ≤ pr) (hi : i < a.length) (hj : j < a.length) :
    SegOp a (lswap a i j) pl pr :=
  ⟨lswap_length a i j, fun t ht => lswap_getD_other a (by omega) (by omega), lswap_perm a hi hj⟩

theorem getD_take_lt (a : List ℕ) {m t : ℕ} (ht : t < m) :
    (a.take m).getD t 0 = a.getD t 0 := by
  rw [List.getD_eq_getElem?_getD, List.getElem?_take, if_pos ht, ← List.getD_eq_getElem?_getD]

theorem getD_drop (a : List ℕ) (m t : ℕ) :
    (a.drop m).getD t 0 = a.getD (m + t) 0 := by
  rw [List.getD_eq_getElem?_getD, List.getElem?_drop, ← List.getD_eq_getElem?_getD]

theorem insertLE_perm (keys : List ℚ) (x : ℕ) (l : List ℕ) :
    (insertLE keys x l).Perm (x :: l) := by
  induction l with
  | nil => exact List.Perm.refl _
  | cons y ys ih =>
    unfold insertLE
    split
    · exact (ih.cons y).trans (List.Perm.swap x y ys)
    · exact List.Perm.refl _

theorem insertLE_sorted (keys : List ℚ) (x : ℕ) {l : List ℕ}
    (hl : l.Sorted (fun i j => keys.getD i 0 ≤ keys.getD j 0)) :
    (insertLE keys x l).Sorted (fun i j => keys.getD i 0 ≤ keys.getD j 0) := by
  induction l with
  | nil => simp [insertLE]
  | cons y ys ih =>
    rw [List.sorted_cons] at hl
    unfold insertLE
    split
    · rename_i hyx
      rw [List.sorted_cons]
      refine ⟨?_, ih hl.2⟩
      intro b hb
      rcases List.mem_cons.mp ((insertLE_perm keys x ys).mem_iff.mp hb) with h | h
      · subst h; exact hyx
      · exact hl.1 b h
    · rename_i hyx
      push_neg at hyx
      rw [List.sorted_cons]
      constructor
      · intro b hb
        rcases List.mem_cons.mp hb with h | h
        · subst h; exact le_of_lt hyx
        · exact le_of_lt (lt_of_lt_of_le hyx (hl.1 b h))
      · exact List.sorted_cons.mpr hl

theorem foldl_insertLE_sorted_perm (keys : List ℚ) :
    ∀ (l acc : List ℕ), acc.Sorted (fun i j => keys.getD i 0 ≤ keys.getD j 0) →
      (l.foldl (fun acc x => insertLE keys x acc) acc).Sorted
          (fun i j => keys.getD i 0 ≤ keys.getD j 0) ∧
        (l.foldl (fun acc x => insertLE keys x acc) acc).Perm (acc ++ l) := by
  intro l
  induction l with
  | nil => intro acc hacc; exact ⟨hacc, by simp⟩
  | cons x xs ih =>
    intro acc hacc
    rw [List.foldl_cons]
    obtain ⟨hs, hp⟩ := ih (insertLE keys x acc) (insertLE_sorted keys x hacc)
    refine ⟨hs, hp.trans ?_⟩
    have h1 : (insertLE keys x acc ++ xs).Perm ((x :: acc) ++ xs) :=
      (insertLE_perm keys x acc).append (List.Perm.refl xs)
    exact h1.trans List.perm_middle.symm

theorem insertionArgsortList_sorted (keys : List ℚ) (l : List ℕ) :
    (insertionArgsortList keys l).Sorted (fun i j => keys.getD i 0 ≤ keys.getD j 0) :=
  (foldl_insertLE_sorted_perm keys l [] List.sorted_nil).1

theorem insertionArgsortList_perm (keys : List ℚ) (l : List ℕ) :
    (insertionArgsortList keys l).Perm l := by
  have := (foldl_insertLE_sorted_perm keys l [] List.sorted_nil).2
  simpa [insertionArgsortList] using this

theorem sliceSeg_middle (P M D : List ℕ) {pl pr : ℕ} (hP : P.length = pl)
    (hM : M.length = pr + 1 - pl) :
    sliceSeg (P ++ M ++ D) pl pr = M := by
  unfold sliceSeg
  have h1 : (P ++ M ++ D).drop pl = M ++ D := by
    rw [List.append_assoc, ← hP, List.drop_left]
  rw [h1, show pr + 1 - pl = M.length from by omega, List.take_left]

theorem insertionSeg_spec (keys : List ℚ) {arr : List ℕ} {pl pr : ℕ} (hpl : pl ≤ pr)
    (hpr : pr < arr.length) :
    SegOp arr (insertionSeg keys arr pl pr) pl pr ∧
      SortedSeg keys (insertionSeg keys arr pl pr) pl pr := by
  unfold insertionSeg
  rw [if_neg (by push_neg; omega)]
  dsimp only
  have hseg : (arr.drop pl).take (pr - pl + 1) = sliceSeg arr pl pr := by
    rw [sliceSeg]
    congr 1
    omega
  rw [hseg]
  have hMp := insertionArgsortList_perm keys (sliceSeg arr pl pr)
  have hMs := insertionArgsortList_sorted keys (sliceSeg arr pl pr)
  have hslen : (sliceSeg arr pl pr).length = pr + 1 - pl := sliceSeg_length arr hpr
  have hMlen : (insertionArgsortList keys (sliceSeg arr pl pr)).length = pr + 1 - pl := by
    rw [hMp.length_eq, hslen]
  have hPlen : (arr.take pl).length = pl := by
    rw [List.length_take]
    omega
  have hDlen : (arr.drop (pr + 1)).length = arr.length - (pr + 1) := List.length_drop _ _
  refine ⟨⟨?_, ?_, ?_⟩, ?_⟩
  · simp only [List.length_append, hPlen, hMlen, hDlen]
    omega
  · intro t ht
    rw [getD_append_cases, getD_append_cases]
    simp only [List.length_append, hPlen, hMlen]
    rcases ht with ht | ht
    · rw [if_pos (by omega), if_pos (by omega), getD_take_lt arr ht]
    · rw [if_neg (by omega), getD_drop]
      congr 1
      omega
  · have h1 : (arr.take pl ++ insertionArgsortList keys (sliceSeg arr pl pr)
        ++ arr.drop (pr + 1)).Perm (arr.take pl ++ sliceSeg arr pl pr ++ arr.drop (pr + 1)) :=
      ((List.Perm.refl _).append hMp).append (List.Perm.refl _)
    rw [← decomp_slice arr pl pr (by omega) hpr] at h1
    exact h1
  · unfold SortedSeg
    rw [sliceSeg_middle _ _ _ hPlen hMlen]
    exact hMs

theorem scanUp_spec (keys : List ℚ) (arr : List ℕ) (vp : ℚ) :
    ∀ (f i j : ℕ), i < j → j ≤ i + f → ¬ keyAt keys arr j < vp →
      i < scanUp keys arr vp f i ∧ scanUp keys arr vp f i ≤ j ∧
        ¬ keyAt keys arr (scanUp keys arr vp f i) < vp ∧
        ∀ t, i < t → t < scanUp keys arr vp f i → keyAt keys arr t < vp := by
  intro f
  induction f with
  | zero => intro i j h1 h2 _; omega
  | succ f ih =>
    intro i j h1 h2 h3
    unfold scanUp
    dsimp only
    by_cases hk : keyAt keys arr (i + 1) < vp
    · rw [if_pos hk]
      have hij : i + 1 ≠ j := fun he => h3 (he ▸ hk)
      obtain ⟨c1, c2, c3, c4⟩ := ih (i + 1) j (by omega) (by omega) h3
      refine ⟨by omega, c2, c3, ?_⟩
      intro t ht1 ht2
      rcases Nat.lt_or_ge t (i + 2) with h | h
      · have : t = i + 1 := by omega
        subst this
        exact hk
      · exact c4 t (by omega) ht2
    · rw [if_neg hk]
      exact ⟨by omega, by omega, hk, fun t ht1 ht2 => absurd ht1 (by omega)⟩

theorem scanDown_spec (keys : List ℚ) (arr : List ℕ) (vp : ℚ) :
    ∀ (f i j : ℕ), j < i → i ≤ j + f → ¬ vp < keyAt keys arr j →
      scanDown keys arr vp f i < i ∧ j ≤ scanDown keys arr vp f i ∧
        ¬ vp < keyAt keys arr (scanDown keys arr vp f i) ∧
        ∀ t, scanDown keys arr vp f i < t → t < i → vp < keyAt keys arr t := by
  intro f
  induction f with
  | zero => intro i j h1 h2 _; omega
  | succ f ih =>
    intro i j h1 h2 h3
    unfold scanDown
    dsimp only
    by_cases hk : vp < keyAt keys arr (i - 1)
    · rw [if_pos hk]
      have hij : i - 1 ≠ j := fun he => h3 (he ▸ hk)
      obtain ⟨c1, c2, c3, c4⟩ := ih (i - 1) j (by omega) (by omega) h3
      refine ⟨by omega, c2, c3, ?_⟩
      intro t ht1 ht2
      rcases Nat.lt_or_ge t (i - 1) with h | h
      · exact c4 t ht1 h
      · have : t = i - 1 := by omega
        subst this
        exact hk
    · rw [if_neg hk]
      exact ⟨by omega, by omega, hk, fun t ht1 ht2 => absurd ht1 (by omega)⟩

theorem keyAt_lswap_fst (keys : List ℚ) (a : List ℕ) {i j : ℕ} (hi : i < a.length)
    (hj : j < a.length) : keyAt keys (lswap a i j) i = keyAt keys a j := by
  unfold keyAt
  rw [lswap_getD_fst a hi hj]

theorem keyAt_lswap_snd (keys : List ℚ) (a : List ℕ) {i j : ℕ} (hi : i < a.length)
    (hj : j < a.length) : keyAt keys (lswap a i j) j = keyAt keys a i := by
  unfold keyAt
  rw [lswap_getD_snd a hi hj]

theorem keyAt_lswap_other (keys : List ℚ) (a : List ℕ) {i j t : ℕ} (hti : t ≠ i)
    (htj : t ≠ j) : keyAt keys (lswap a i j) t = keyAt keys a t := by
  unfold keyAt
  rw [lswap_getD_other a hti htj]

theorem keyAt_eq_of_getD {keys : List ℚ} {a b : List ℕ} {t : ℕ}
    (h : a.getD t 0 = b.getD t 0) : keyAt keys a t = keyAt keys b t := by
  unfold keyAt
  rw [h]

theorem condSwap_spec (keys : List ℚ) (b : List ℕ) {y x : ℕ} (hxy : y ≠ x)
    (hy : y < b.length) (hx : x < b.length) :
    keyAt keys (condSwap keys b y x) x ≤ keyAt keys (condSwap keys b y x) y ∧
      ((keyAt keys (condSwap keys b y x) x = keyAt keys b x ∧
        keyAt keys (condSwap keys b y x) y = keyAt keys b y) ∨
       (keyAt keys (condSwap keys b y x) x = keyAt keys b y ∧
        keyAt keys (condSwap keys b y x) y = keyAt keys b x)) ∧
      (condSwap keys b y x).length = b.length ∧
      (condSwap keys b y x).Perm b ∧
      ∀ t, t ≠ x → t ≠ y → (condSwap keys b y x).getD t 0 = b.getD t 0 := by
  unfold condSwap
  split
  · rename_i hlt
    refine ⟨?_, Or.inr ⟨keyAt_lswap_snd keys b hy hx, keyAt_lswap_fst keys b hy hx⟩,
      lswap_length b y x, lswap_perm b hy hx, fun t htx hty => lswap_getD_other b hty htx⟩
    rw [keyAt_lswap_snd keys b hy hx, keyAt_lswap_fst keys b hy hx]
    exact le_of_lt hlt
  · rename_i hge
    push_neg at hge
    exact ⟨hge, Or.inl ⟨rfl, rfl⟩, rfl, List.Perm.refl b, fun t _ _ => rfl⟩

theorem med3_spec (keys : List ℚ) (arr : List ℕ) {pl pm pr : ℕ}
    (h1 : pl < pm) (h2 : pm < pr) (h3 : pr < arr.length) :
    SegOp arr (med3 keys arr pl pm pr) pl pr ∧
      keyAt keys (med3 keys arr pl pm pr) pl ≤ keyAt keys (med3 keys arr pl pm pr) pm ∧
      keyAt keys (med3 keys arr pl pm pr) pm ≤ keyAt keys (med3 keys arr pl pm pr) pr := by
  obtain ⟨s1le, s1cases, s1len, s1perm, s1other⟩ :=
    condSwap_spec keys arr (show pm ≠ pl by omega) (by omega) (by omega)
  set a1 := condSwap keys arr pm pl with ha1
  obtain ⟨s2le, s2cases, s2len, s2perm, s2other⟩ :=
    condSwap_spec keys a1 (show pr ≠ pm by omega) (by rw [s1len]; omega) (by rw [s1len]; omega)
  set a2 := condSwap keys a1 pr pm with ha2
  obtain ⟨s3le, s3cases, s3len, s3perm, s3other⟩ :=
    condSwap_spec keys a2 (show pm ≠ pl by omega)
      (by rw [s2len, s1len]; omega) (by rw [s2len, s1len]; omega)
  set a3 := condSwap keys a2 pm pl with ha3
  have hmed : med3 keys arr pl pm pr = a3 := rfl
  rw [hmed]
  have hpl2 : keyAt keys a2 pl = keyAt keys a1 pl :=
    keyAt_eq_of_getD (s2other pl (by omega) (by omega))
  have hpr3 : keyAt keys a3 pr = keyAt keys a2 pr :=
    keyAt_eq_of_getD (s3other pr (by omega) (by omega))
  refine ⟨?_, s3le, ?_⟩
  · refine ⟨?_, ?_, ?_⟩
    · rw [s3len, s2len, s1len]
    · intro t ht
      have h1 := s1other t (by omega) (by omega)
      have h2 := s2other t (by omega) (by omega)
      have h3 := s3other t (by omega) (by omega)
      rw [h3, h2, h1]
    · exact (s3perm.trans s2perm).trans s1perm
  · rw [hpr3]
    rcases s3cases with ⟨he1, he2⟩ | ⟨he1, he2⟩
    · rw [he2]
      exact s2le
    · rw [he2, hpl2]
      rcases s2cases with ⟨hf1, hf2⟩ | ⟨hf1, hf2⟩
      · rw [hf2]
        calc keyAt keys a1 pl ≤ keyAt keys a1 pm := s1le
          _ ≤ keyAt keys a1 pr := by rw [← hf1, ← hf2]; exact s2le
      · rw [hf2]
        exact s1le

theorem partitionLoop_spec (keys : List ℚ) (vp : ℚ) {pl pr : ℕ} (hpr3 : pl + 3 ≤ pr) :
    ∀ (f : ℕ) (arr : List ℕ) (pi pj : ℕ),
      pr < arr.length →
      pl ≤ pi → pi < pj → pj ≤ pr - 1 →
      (∀ t, pl ≤ t → t ≤ pi → keyAt keys arr t ≤ vp) →
      (∀ t, pj ≤ t → t ≤ pr - 1 → vp ≤ keyAt keys arr t) →
      pj - pi ≤ f →
      SegOp arr (partitionLoop keys vp f arr pi pj).1 (pl + 1) (pr - 2) ∧
        pl < (partitionLoop keys vp f arr pi pj).2 ∧
        (partitionLoop keys vp f arr pi pj).2 ≤ pr - 1 ∧
        (∀ t, pl ≤ t → t < (partitionLoop keys vp f arr pi pj).2 →
          keyAt keys (partitionLoop keys vp f arr pi pj).1 t ≤ vp) ∧
        (∀ t, (partitionLoop keys vp f arr pi pj).2 ≤ t → t ≤ pr - 1 →
          vp ≤ keyAt keys (partitionLoop keys vp f arr pi pj).1 t) := by
  intro f
  induction f with
  | zero =>
    intro arr pi pj hlen hA1 hA2 hA3 hB hC hfuel
    exact absurd hfuel (by omega)
  | succ f ih =>
    intro arr pi pj hlen hA1 hA2 hA3 hB hC hfuel
    obtain ⟨hu1, hu2, hu3, hu4⟩ := scanUp_spec keys arr vp (arr.length + 1) pi (pr - 1)
      (by omega) (by omega) (by
        have := hC (pr - 1) hA3 (by omega)
        intro hc
        exact absurd this (by push_neg; exact hc))
    obtain ⟨hd1, hd2, hd3, hd4⟩ := scanDown_spec keys arr vp (arr.length + 1) pj pl
      (by omega) (by omega) (by
        have := hB pl (by omega) (by omega)
        intro hc
        exact absurd this (by push_neg; exact hc))
    set upi := scanUp keys arr vp (arr.length + 1) pi with hupi
    set dpj := scanDown keys arr vp (arr.length + 1) pj with hdpj
    unfold partitionLoop
    dsimp only
    rw [← hupi, ← hdpj]
    by_cases hbr : dpj ≤ upi
    · rw [if_pos hbr]
      dsimp only
      refine ⟨segOp_refl arr (pl + 1) (pr - 2), by omega, hu2, ?_, ?_⟩
      · intro t ht1 ht2
        rcases Nat.lt_or_ge pi t with h | h
        · exact le_of_lt (hu4 t h ht2)
        · exact hB t ht1 h
      · intro t ht1 ht2
        rcases le_or_lt pj t with h | h
        · exact hC t h ht2
        · rcases Nat.lt_or_ge dpj t with h2 | h2
          · exact le_of_lt (hd4 t h2 h)
          · have hteq : t = upi := by omega
            subst hteq
            push_neg at hu3
            exact hu3
    · rw [if_neg hbr]
      push_neg at hbr
      have hupi_lt : upi < arr.length := by omega
      have hdpj_lt : dpj < arr.length := by omega
      have hlen2 : pr < (lswap arr upi dpj).length := by rw [lswap_length]; exact hlen
      have hB2 : ∀ t, pl ≤ t → t ≤ upi → keyAt keys (lswap arr upi dpj) t ≤ vp := by
        intro t ht1 ht2
        rcases Nat.lt_or_ge t upi with h | h
        · rw [keyAt_lswap_other keys arr (by omega) (by omega)]
          rcases Nat.lt_or_ge pi t with h2 | h2
          · exact le_of_lt (hu4 t h2 h)
          · exact hB t ht1 h2
        · have hteq : t = upi := by omega
          subst hteq
          rw [keyAt_lswap_fst keys arr hupi_lt hdpj_lt]
          push_neg at hd3
          exact hd3
      have hC2 : ∀ t, dpj ≤ t → t ≤ pr - 1 → vp ≤ keyAt keys (lswap arr upi dpj) t := by
        intro t ht1 ht2
        rcases Nat.lt_or_ge dpj t with h | h
        · rw [keyAt_lswap_other keys arr (by omega) (by omega)]
          rcases le_or_lt pj t with h2 | h2
          · exact hC t h2 ht2
          · exact le_of_lt (hd4 t h h2)
        · have hteq : t = dpj := by omega
          subst hteq
          rw [keyAt_lswap_snd keys arr hupi_lt hdpj_lt]
          push_neg at hu3
          exact hu3
      obtain ⟨c1, c2, c3, c4, c5⟩ := ih (lswap arr upi dpj) upi dpj hlen2
        (by omega) hbr (by omega) hB2 hC2 (by omega)
      refine ⟨segOp_trans ?_ c1, c2, c3, c4, c5⟩
      exact lswap_segOp (by omega) (by omega) (by omega) (by omega) hupi_lt hdpj_lt

theorem partitionStep_spec (keys : List ℚ) {arr : List ℕ} {pl pr : ℕ}
    (h16 : pl + 16 ≤ pr) (hpr : pr < arr.length) :
    SegOp arr (partitionStep keys arr pl pr).1 pl pr ∧
      pl < (partitionStep keys arr pl pr).2 ∧
      (partitionStep keys arr pl pr).2 < pr ∧
      (∀ t, pl ≤ t → t < (partitionStep keys arr pl pr).2 →
        keyAt keys (partitionStep keys arr pl pr).1 t ≤
          keyAt keys (partitionStep keys arr pl pr).1 (partitionStep keys arr pl pr).2) ∧
      (∀ t, (partitionStep keys arr pl pr).2 < t → t ≤ pr →
        keyAt keys (partitionStep keys arr pl pr).1 (partitionStep keys arr pl pr).2 ≤
          keyAt keys (partitionStep keys arr pl pr).1 t) := by
  set pm := pl + (pr - pl) / 2 with hpm
  have hpm1 : pl < pm := by omega
  have hpm2 : pm < pr - 1 := by omega
  obtain ⟨hm1, hm2, hm3⟩ := med3_spec keys arr (show pl < pm from hpm1)
    (show pm < pr by omega) hpr
  set a3 := med3 keys arr pl pm pr with ha3
  have ha3len : a3.length = arr.length := hm1.1
  set vp := keyAt keys a3 pm with hvp
  set a4 := lswap a3 pm (pr - 1) with ha4
  have ha4len : a4.length = arr.length := by rw [ha4, lswap_length, ha3len]
  have hk4pl : keyAt keys a4 pl ≤ vp := by
    rw [ha4, keyAt_lswap_other keys a3 (by omega) (by omega)]
    exact hm2
  have hk4pr1 : keyAt keys a4 (pr - 1) = vp := by
    rw [ha4, keyAt_lswap_snd keys a3 (by rw [ha3len]; omega) (by rw [ha3len]; omega)]
  have hk4pr : vp ≤ keyAt keys a4 pr := by
    rw [ha4, keyAt_lswap_other keys a3 (by omega) (by omega)]
    exact hm3
  obtain ⟨hL1, hL2, hL3, hL4, hL5⟩ := partitionLoop_spec keys vp (show pl + 3 ≤ pr by omega)
    (pr - pl + 2) a4 pl (pr - 1) (by rw [ha4len]; exact hpr) (le_refl pl) (by omega)
    (le_refl (pr - 1))
    (by
      intro t ht1 ht2
      have hteq : t = pl := by omega
      subst hteq
      exact hk4pl)
    (by
      intro t ht1 ht2
      have hteq : t = pr - 1 := by omega
      subst hteq
      rw [hk4pr1])
    (by omega)
  set A5 := (partitionLoop keys vp (pr - pl + 2) a4 pl (pr - 1)).1 with hA5
  set piF := (partitionLoop keys vp (pr - pl + 2) a4 pl (pr - 1)).2 with hpiF
  have hstep : partitionStep keys arr pl pr = (lswap A5 piF (pr - 1), piF) := rfl
  rw [hstep]
  dsimp only
  have hA5len : A5.length = arr.length := by rw [hL1.1, ha4len]
  have hpiFlen : piF < A5.length := by rw [hA5len]; omega
  have hpr1len : pr - 1 < A5.length := by rw [hA5len]; omega
  have hprlen : pr < A5.length := by rw [hA5len]; exact hpr
  have hA5pr1 : keyAt keys A5 (pr - 1) = vp := by
    rw [keyAt_eq_of_getD (hL1.2.1 (pr - 1) (Or.inr (by omega)))]
    exact hk4pr1
  have hA5pr : vp ≤ keyAt keys A5 pr := by
    rw [keyAt_eq_of_getD (hL1.2.1 pr (Or.inr (by omega)))]
    exact hk4pr
  have hkey_piF : keyAt keys (lswap A5 piF (pr - 1)) piF = vp := by
    rw [keyAt_lswap_fst keys A5 hpiFlen hpr1len]
    exact hA5pr1
  refine ⟨?_, hL2, by omega, ?_, ?_⟩
  · have s1 : SegOp arr a3 pl pr := hm1
    have s2 : SegOp a3 a4 pl pr := by
      rw [ha4]
      exact lswap_segOp (by omega) (by omega) (by omega) (by omega)
        (by rw [ha3len]; omega) (by rw [ha3len]; omega)
    have s3 : SegOp a4 A5 pl pr := segOp_mono (by omega) (by omega) hL1
    have s4 : SegOp A5 (lswap A5 piF (pr - 1)) pl pr :=
      lswap_segOp (by omega) (by omega) (by omega) (by omega) hpiFlen hpr1len
    exact segOp_trans (segOp_trans (segOp_trans s1 s2) s3) s4
  · intro t ht1 ht2
    rw [hkey_piF, keyAt_lswap_other keys A5 (by omega) (by omega)]
    exact hL4 t ht1 ht2
  · intro t ht1 ht2
    rw [hkey_piF]
    rcases Nat.lt_or_ge t (pr - 1) with h | h
    · rw [keyAt_lswap_other keys A5 (by omega) (by omega)]
      exact hL5 t (by omega) (by omega)
    · rcases Nat.lt_or_ge t pr with h2 | h2
      · have hteq : t = pr - 1 := by omega
        subst hteq
        rw [keyAt_lswap_snd keys A5 hpiFlen hpr1len]
        exact hL5 piF (le_refl piF) hL3
      · have hteq : t = pr := by omega
        subst hteq
        rw [keyAt_lswap_other keys A5 (by omega) (by omega)]
        exact hA5pr

theorem keyAt_set_self (keys : List ℚ) (a : List ℕ) {p : ℕ} (hp : p < a.length) (v : ℕ) :
    keyAt keys (a.set p v) p = keys.getD v 0 := by
  unfold keyAt
  rw [getD_set_self a hp v]

theorem keyAt_set_ne (keys : List ℚ) (a : List ℕ) {p t : ℕ} (h : p ≠ t) (v : ℕ) :
    keyAt keys (a.set p v) t = keyAt keys a t := by
  unfold keyAt
  rw [getD_set_ne a h v]

theorem set_getD_self_list (a : List ℕ) {p : ℕ} (hp : p < a.length) :
    a.set p (a.getD p 0) = a := by
  apply eq_of_length_getD
  · simp
  · intro t ht
    by_cases h : p = t
    · subst h
      rw [getD_set_self a hp]
    · rw [getD_set_ne a h]

theorem set_set_perm (a : List ℕ) {p1 p2 : ℕ} (hne : p1 ≠ p2) (h1 : p1 < a.length)
    (h2 : p2 < a.length) (v : ℕ) :
    ((a.set p1 (a.getD p2 0)).set p2 v).Perm (a.set p1 v) := by
  rw [List.perm_iff_count]
  intro x
  have e1 := count_set_add a p1 h1 (a.getD p2 0) x
  have e2 := count_set_add (a.set p1 (a.getD p2 0)) p2 (by simpa using h2) v x
  have e3 := count_set_add a p1 h1 v x
  rw [getD_set_ne a hne] at e2
  split_ifs at e1 e2 e3 <;> omega

theorem sortedSeg_of_pointwise {keys : List ℚ} {b : List ℕ} {pl pr : ℕ}
    (hpr : pr < b.length)
    (h : ∀ u v, pl ≤ u → u ≤ v → v ≤ pr → keyAt keys b u ≤ keyAt keys b v) :
    SortedSeg keys b pl pr := by
  unfold SortedSeg
  rw [List.Sorted, List.pairwise_iff_getElem]
  intro i j hi hj hij
  rw [sliceSeg_length b hpr] at hi hj
  have hgi : (sliceSeg b pl pr)[i] = (sliceSeg b pl pr).getD i 0 := by
    rw [List.getD_eq_getElem?_getD, List.getElem?_eq_getElem (by rw [sliceSeg_length b hpr]; omega)]
    rfl
  have hgj : (sliceSeg b pl pr)[j] = (sliceSeg b pl pr).getD j 0 := by
    rw [List.getD_eq_getElem?_getD, List.getElem?_eq_getElem (by rw [sliceSeg_length b hpr]; omega)]
    rfl
  rw [hgi, hgj, sliceSeg_getD b (by omega) hpr, sliceSeg_getD b (by omega) hpr]
  exact h (pl + i) (pl + j) (by omega) (by omega) (by omega)

theorem siftLoop_spec (keys : List ℚ) (pl tmpIdx m : ℕ) {pr : ℕ}
    (hmr : pl + m ≤ pr + 1) :
    ∀ (f : ℕ) (a aF : List ℕ) (i i0 iF : ℕ),
      pr < a.length →
      1 ≤ i0 → i0 ≤ i → i ≤ m →
      m < i * 2 ^ f →
      (∀ h, 2 ≤ h → h ≤ m → i0 ≤ h / 2 → h / 2 ≠ i →
        keyAt keys a (pl + h - 1) ≤ keyAt keys a (pl + h / 2 - 1)) →
      (i0 < i → keys.getD tmpIdx 0 < keyAt keys a (pl + i / 2 - 1)) →
      (∀ h, 2 ≤ h → h ≤ m → h / 2 = i → i0 < i →
        keyAt keys a (pl + h - 1) ≤ keyAt keys a (pl + i / 2 - 1)) →
      siftLoop keys pl tmpIdx m f a i (2 * i) = (aF, iF) →
      (i ≤ iF ∧ iF ≤ m) ∧
        SegOp (a.set (pl + i - 1) tmpIdx) (aF.set (pl + iF - 1) tmpIdx)
          (pl + i - 1) (pl + m - 1) ∧
        ∀ h, 2 ≤ h → h ≤ m → i0 ≤ h / 2 →
          keyAt keys (aF.set (pl + iF - 1) tmpIdx) (pl + h - 1) ≤
            keyAt keys (aF.set (pl + iF - 1) tmpIdx) (pl + h / 2 - 1) := by
  intro f
  induction f with
  | zero =>
    intro a aF i i0 iF hlen h1 h2 h3 hf
    exact absurd hf (by simp; omega)
  | succ f ih =>
    intro a aF i i0 iF hlen hi01 hi0i him hf hS3 hS4 hS5 heq
    have hposi : pl + i - 1 < a.length := by omega
    unfold siftLoop at heq
    by_cases h2i : 2 * i ≤ m
    · rw [if_pos h2i] at heq
      dsimp only at heq
      set j1 := if 2 * i < m ∧
          keys.getD (heapGet a pl (2 * i)) 0 < keys.getD (heapGet a pl (2 * i + 1)) 0
        then 2 * i + 1 else 2 * i with hj1def
      have hj1cases : j1 = 2 * i ∨ j1 = 2 * i + 1 := by
        rw [hj1def]
        split
        · exact Or.inr rfl
        · exact Or.inl rfl
      have hj1m : j1 ≤ m := by
        rw [hj1def]
        split
        · rename_i hc
          omega
        · omega
      have hj1half : j1 / 2 = i := by omega
      have hj1gt : i < j1 := by omega
      have hmax1 : keyAt keys a (pl + 2 * i - 1) ≤ keyAt keys a (pl + j1 - 1) := by
        rw [hj1def]
        split
        · rename_i hc
          have : keys.getD (heapGet a pl (2 * i)) 0 < keys.getD (heapGet a pl (2 * i + 1)) 0 :=
            hc.2
          exact le_of_lt this
        · exact le_refl _
      have hmax2 : 2 * i + 1 ≤ m →
          keyAt keys a (pl + (2 * i + 1) - 1) ≤ keyAt keys a (pl + j1 - 1) := by
        intro hcm
        rw [hj1def]
        split
        · exact le_refl _
        · rename_i hc
          push_neg at hc
          exact hc (by omega)
      by_cases hmove : keys.getD tmpIdx 0 < keys.getD (heapGet a pl j1) 0
      · rw [if_pos hmove] at heq
        have hmove2 : keys.getD tmpIdx 0 < keyAt keys a (pl + j1 - 1) := hmove
        have hadef : heapSet a pl i (heapGet a pl j1) =
            a.set (pl + i - 1) (a.getD (pl + j1 - 1) 0) := rfl
        rw [hadef] at heq
        set a' := a.set (pl + i - 1) (a.getD (pl + j1 - 1) 0) with ha'
        have hlena' : pr < a'.length := by rw [ha', List.length_set]; exact hlen
        have hkeya'_i : keyAt keys a' (pl + i - 1) = keyAt keys a (pl + j1 - 1) := by
          rw [ha', keyAt_set_self keys a hposi]
          rfl
        have hkeya'_ne : ∀ t, t ≠ i → 1 ≤ t →
            keyAt keys a' (pl + t - 1) = keyAt keys a (pl + t - 1) := by
          intro t ht ht1
          rw [ha', keyAt_set_ne keys a (by omega)]
        have hS3' : ∀ h, 2 ≤ h → h ≤ m → i0 ≤ h / 2 → h / 2 ≠ j1 →
            keyAt keys a' (pl + h - 1) ≤ keyAt keys a' (pl + h / 2 - 1) := by
          intro h hh2 hhm hh0 hhj1
          by_cases hcase : h = i
          · subst hcase
            have hi2 : 2 ≤ h := hh2
            have hne : h / 2 ≠ h := by omega
            rw [hkeya'_i, hkeya'_ne (h / 2) hne (by omega)]
            have hilt : i0 < h := by omega
            exact hS5 j1 (by omega) hj1m (by rw [hj1half]) hilt
          · by_cases hcase2 : h / 2 = i
            · rw [hkeya'_ne h hcase (by omega)]
              rw [hcase2, hkeya'_i]
              rcases (by omega : h = 2 * i ∨ h = 2 * i + 1) with he | he
              · rw [he]
                exact hmax1
              · rw [he]
                exact hmax2 (by omega)
            · rw [hkeya'_ne h hcase (by omega), hkeya'_ne (h / 2) hcase2 (by omega)]
              exact hS3 h hh2 hhm hh0 hcase2
        have hS4' : i0 < j1 → keys.getD tmpIdx 0 < keyAt keys a' (pl + j1 / 2 - 1) := by
          intro _
          rw [hj1half, hkeya'_i]
          exact hmove2
        have hS5' : ∀ h, 2 ≤ h → h ≤ m → h / 2 = j1 → i0 < j1 →
            keyAt keys a' (pl + h - 1) ≤ keyAt keys a' (pl + j1 / 2 - 1) := by
          intro h hh2 hhm hhj1 _
          rw [hj1half, hkeya'_i, hkeya'_ne h (by omega) (by omega)]
          have := hS3 h hh2 hhm (by omega) (by omega)
          rwa [hhj1] at this
        have hfuel' : m < j1 * 2 ^ f := by
          have h1 : i * 2 ^ (f + 1) = 2 * i * 2 ^ f := by ring
          have h2 : 2 * i * 2 ^ f ≤ j1 * 2 ^ f :=
            Nat.mul_le_mul_right _ (by omega)
          omega
        obtain ⟨hK1, hK2, hK3⟩ := ih a' aF j1 i0 iF hlena' hi01 (by omega) hj1m hfuel'
          hS3' hS4' hS5' heq
        refine ⟨⟨by omega, hK1.2⟩, ?_, hK3⟩
        have hstep : SegOp (a.set (pl + i - 1) tmpIdx) (a'.set (pl + j1 - 1) tmpIdx)
            (pl + i - 1) (pl + m - 1) := by
          refine ⟨?_, ?_, ?_⟩
          · rw [ha']
            simp
          · intro t ht
            rw [ha']
            rw [getD_set_ne _ (show pl + j1 - 1 ≠ t by omega),
              getD_set_ne _ (show pl + i - 1 ≠ t by omega),
              getD_set_ne _ (show pl + i - 1 ≠ t by omega)]
          · rw [ha']
            exact set_set_perm a (by omega) (by omega) (by omega) tmpIdx
        exact segOp_trans hstep (segOp_mono (by omega) (le_refl _) hK2)
      · rw [if_neg hmove] at heq
        cases heq
        push_neg at hmove
        have hmove2 : keyAt keys a (pl + j1 - 1) ≤ keys.getD tmpIdx 0 := hmove
        refine ⟨⟨le_refl i, him⟩, segOp_refl _ _ _, ?_⟩
        intro h hh2 hhm hh0
        by_cases hcase : h / 2 = i
        · rw [hcase]
          have hne : h ≠ i := by omega
          rw [keyAt_set_ne keys a (by omega), keyAt_set_self keys a hposi]
          have hle1 : keyAt keys a (pl + h - 1) ≤ keyAt keys a (pl + j1 - 1) := by
            rcases (by omega : h = 2 * i ∨ h = 2 * i + 1) with he | he
            · rw [he]
              exact hmax1
            · rw [he]
              exact hmax2 (by omega)
          exact le_trans hle1 hmove2
        · by_cases hcase2 : h = i
          · subst hcase2
            rw [keyAt_set_self keys a hposi, keyAt_set_ne keys a (by omega)]
            exact le_of_lt (hS4 (by omega))
          · rw [keyAt_set_ne keys a (by omega), keyAt_set_ne keys a (by omega)]
            exact hS3 h hh2 hhm hh0 hcase
    · rw [if_neg h2i] at heq
      cases heq
      refine ⟨⟨le_refl i, him⟩, segOp_refl _ _ _, ?_⟩
      intro h hh2 hhm hh0
      by_cases hcase : h / 2 = i
      · exact absurd hhm (by omega)
      · by_cases hcase2 : h = i
        · subst hcase2
          rw [keyAt_set_self keys a hposi, keyAt_set_ne keys a (by omega)]
          exact le_of_lt (hS4 (by omega))
        · rw [keyAt_set_ne keys a (by omega), keyAt_set_ne keys a (by omega)]
          exact hS3 h hh2 hhm hh0 hcase

theorem heap_le_root (keys : List ℚ) (pl m : ℕ) (a : List ℕ)
    (hheap : ∀ h, 2 ≤ h → h ≤ m → keyAt keys a (pl + h - 1) ≤ keyAt keys a (pl + h / 2 - 1)) :
    ∀ h, 1 ≤ h → h ≤ m → keyAt keys a (pl + h - 1) ≤ keyAt keys a pl := by
  intro h
  induction h using Nat.strong_induction_on with
  | _ h ih =>
    intro h1 hm
    rcases (by omega : h = 1 ∨ 2 ≤ h) with he | he
    · subst he
      exact le_refl _
    · exact le_trans (hheap h he hm) (ih (h / 2) (by omega) (by omega) (by omega))

theorem heapBuild_spec (keys : List ℚ) (pl m : ℕ) {pr : ℕ} (hm1 : 1 ≤ m)
    (hmr : pl + m ≤ pr + 1) :
    ∀ (l : ℕ) (a : List ℕ), pr < a.length → l ≤ m / 2 →
      (∀ h, 2 ≤ h → h ≤ m → l < h / 2 →
        keyAt keys a (pl + h - 1) ≤ keyAt keys a (pl + h / 2 - 1)) →
      SegOp a (heapBuild keys pl m a l) pl (pl + m - 1) ∧
        ∀ h, 2 ≤ h → h ≤ m →
          keyAt keys (heapBuild keys pl m a l) (pl + h - 1) ≤
            keyAt keys (heapBuild keys pl m a l) (pl + h / 2 - 1) := by
  intro l
  induction l with
  | zero =>
    intro a hlen hl hinv
    exact ⟨segOp_refl _ _ _, fun h h2 hm => hinv h h2 hm (by omega)⟩
  | succ l ihl =>
    intro a hlen hl hinv
    have heqS : siftLoop keys pl (heapGet a pl (l + 1)) m (m + 2) a (l + 1) (2 * (l + 1)) =
        ((siftLoop keys pl (heapGet a pl (l + 1)) m (m + 2) a (l + 1) (2 * (l + 1))).1,
         (siftLoop keys pl (heapGet a pl (l + 1)) m (m + 2) a (l + 1) (2 * (l + 1))).2) := rfl
    have hfuel : m < (l + 1) * 2 ^ (m + 2) := by
      have p1 : m < 2 ^ (m + 2) :=
        lt_of_lt_of_le (Nat.lt_two_pow m) (Nat.pow_le_pow_right (by omega) (by omega))
      have p2 : 2 ^ (m + 2) ≤ (l + 1) * 2 ^ (m + 2) := Nat.le_mul_of_pos_left _ (by omega)
      omega
    obtain ⟨hK1, hK2, hK3⟩ := siftLoop_spec keys pl (heapGet a pl (l + 1)) m hmr (m + 2)
      a _ (l + 1) (l + 1) _ hlen (by omega) (le_refl _) (by omega) hfuel
      (fun h a2 b c d => hinv h a2 b (by omega))
      (fun hc => absurd hc (by omega))
      (fun h _ _ _ hc => absurd hc (by omega))
      heqS
    have hsetself : a.set (pl + (l + 1) - 1) (heapGet a pl (l + 1)) = a :=
      set_getD_self_list a (by omega)
    rw [hsetself] at hK2
    have hunf : heapBuild keys pl m a (l + 1) =
        heapBuild keys pl m
          ((siftLoop keys pl (heapGet a pl (l + 1)) m (m + 2) a (l + 1) (2 * (l + 1))).1.set
            (pl + (siftLoop keys pl (heapGet a pl (l + 1)) m (m + 2) a (l + 1) (2 * (l + 1))).2
              - 1)
            (heapGet a pl (l + 1))) l := rfl
    rw [hunf]
    set G := (siftLoop keys pl (heapGet a pl (l + 1)) m (m + 2) a (l + 1) (2 * (l + 1))).1.set
      (pl + (siftLoop keys pl (heapGet a pl (l + 1)) m (m + 2) a (l + 1) (2 * (l + 1))).2 - 1)
      (heapGet a pl (l + 1)) with hG
    have hlenG : pr < G.length := by
      have := hK2.1
      omega
    obtain ⟨hR1, hR2⟩ := ihl G hlenG (by omega)
      (fun h h2 hm hpar => hK3 h h2 hm (by omega))
    refine ⟨?_, hR2⟩
    exact segOp_trans (segOp_mono (by omega) (le_refl _) hK2) hR1

theorem heapExtract_spec (keys : List ℚ) (pl : ℕ) {pr : ℕ} :
    ∀ (m : ℕ) (a : List ℕ), 1 ≤ m → pl + m ≤ pr + 1 → pr < a.length →
      (∀ h, 2 ≤ h → h ≤ m → keyAt keys a (pl + h - 1) ≤ keyAt keys a (pl + h / 2 - 1)) →
      (∀ u v, pl + m ≤ u → u ≤ v → v ≤ pr → keyAt keys a u ≤ keyAt keys a v) →
      (∀ h u, 1 ≤ h → h ≤ m → pl + m ≤ u → u ≤ pr →
        keyAt keys a (pl + h - 1) ≤ keyAt keys a u) →
      SegOp a (heapExtract keys pl a m) pl (pl + m - 1) ∧
        ∀ u v, pl ≤ u → u ≤ v → v ≤ pr →
          keyAt keys (heapExtract keys pl a m) u ≤ keyAt keys (heapExtract keys pl a m) v := by
  intro m
  induction m with
  | zero => intro a h1 _ _ _ _ _; exact absurd h1 (by omega)
  | succ m ihm =>
    intro a hm1 hmr hlen hheap hsuf hcross
    cases m with
    | zero =>
      refine ⟨segOp_refl _ _ _, ?_⟩
      intro u v hu huv hv
      rcases (by omega : u = v ∨ u < v) with he | he
      · rw [he]
      · rcases (by omega : pl + 1 ≤ u ∨ u = pl) with h2 | h2
        · exact hsuf u v h2 (by omega) hv
        · subst h2
          exact hcross 1 v (le_refl _) (le_refl _) (by omega) hv
    | succ n =>
      have hroot := heap_le_root keys pl (n + 2) a hheap
      have hposM : pl + n + 1 ≤ pr := by omega
      have ha1len : (heapSet a pl (n + 2) (heapGet a pl 1)).length = a.length := by
        unfold heapSet
        simp
      set a1 := heapSet a pl (n + 2) (heapGet a pl 1) with ha1
      have ha1eq : a1 = a.set (pl + n + 1) (a.getD pl 0) := rfl
      have hkeya1 : ∀ t, t ≠ pl + n + 1 → keyAt keys a1 t = keyAt keys a t := by
        intro t ht
        rw [ha1eq, keyAt_set_ne keys a (by omega)]
      have hkeya1M : keyAt keys a1 (pl + n + 1) = keyAt keys a pl := by
        rw [ha1eq, keyAt_set_self keys a (by omega)]
        rfl
      have heqS : siftLoop keys pl (heapGet a pl (n + 2)) (n + 1) (n + 3) a1 1 (2 * 1) =
          ((siftLoop keys pl (heapGet a pl (n + 2)) (n + 1) (n + 3) a1 1 (2 * 1)).1,
           (siftLoop keys pl (heapGet a pl (n + 2)) (n + 1) (n + 3) a1 1 (2 * 1)).2) := rfl
      have hfuel : n + 1 < 1 * 2 ^ (n + 3) := by
        have p1 : n + 1 < 2 ^ (n + 3) :=
          lt_of_lt_of_le (Nat.lt_two_pow (n + 1)) (Nat.pow_le_pow_right (by omega) (by omega))
        omega
      obtain ⟨hK1, hK2, hK3⟩ := siftLoop_spec keys pl (heapGet a pl (n + 2)) (n + 1)
        (show pl + (n + 1) ≤ pr + 1 by omega) (n + 3) a1 _ 1 1 _
        (by rw [ha1len]; exact hlen) (le_refl _) (le_refl _)
        (by omega) hfuel
        (by
          intro h h2 hhm hh0 hne
          rw [hkeya1 (pl + h - 1) (by omega), hkeya1 (pl + h / 2 - 1) (by omega)]
          exact hheap h h2 (by omega))
        (fun hc => absurd hc (by omega))
        (fun h _ _ _ hc => absurd hc (by omega))
        heqS
      set S := siftLoop keys pl (heapGet a pl (n + 2)) (n + 1) (n + 3) a1 1 (2 * 1) with hS
      set G := S.1.set (pl + S.2 - 1) (heapGet a pl (n + 2)) with hG
      have hK2' : SegOp (a1.set pl (heapGet a pl (n + 2))) G pl (pl + n) := by
        have e1 : pl + 1 - 1 = pl := by omega
        have e2 : pl + (n + 1) - 1 = pl + n := by omega
        rw [e1, e2] at hK2
        exact hK2
      have hGlen : G.length = a.length := by
        have := hK2'.1
        simp only [List.length_set] at this ⊢
        rw [this, ha1len]
      have hswap : a1.set pl (heapGet a pl (n + 2)) = lswap a (pl + n + 1) pl := rfl
      have htmpkey : keys.getD (heapGet a pl (n + 2)) 0 = keyAt keys a (pl + n + 1) := rfl
      have hGtop : keyAt keys G (pl + n + 1) = keyAt keys a pl := by
        have houts := hK2'.2.1 (pl + n + 1) (Or.inr (by omega))
        rw [keyAt_eq_of_getD houts, hswap,
          keyAt_lswap_fst keys a (by omega) (by omega)]
      have hGsuf : ∀ u, pl + n + 1 < u → u ≤ pr → keyAt keys G u = keyAt keys a u := by
        intro u hu1 hu2
        have houts := hK2'.2.1 u (Or.inr (by omega))
        rw [keyAt_eq_of_getD houts, hswap,
          keyAt_lswap_other keys a (by omega) (by omega)]
      -- every value in the heap region of G is bounded by every suffix key and by the old root
      have hbound : ∀ (B : ℚ), keyAt keys a pl ≤ B →
          (∀ u, pl + n + 2 ≤ u → u ≤ pr → keyAt keys a u = B → True) →
          (∀ t, pl ≤ t → t ≤ pl + n →
            keyAt keys (a1.set pl (heapGet a pl (n + 2))) t ≤ keyAt keys a pl) := by
        intro B hB _
        intro t ht1 ht2
        rcases (by omega : t = pl ∨ pl < t) with he | he
        · subst he
          rw [hswap, keyAt_lswap_snd keys a (by omega) (by omega)]
          exact hroot (n + 2) (by omega) (le_refl _)
        · rw [hswap, keyAt_lswap_other keys a (by omega) (by omega)]
          have he2 : t = pl + (t - pl + 1) - 1 := by omega
          rw [he2]
          exact hroot (t - pl + 1) (by omega) (by omega)
      have hboundroot : ∀ t, pl ≤ t → t ≤ pl + n →
          keyAt keys (a1.set pl (heapGet a pl (n + 2))) t ≤ keyAt keys a pl :=
        hbound (keyAt keys a pl) (le_refl _) (fun _ _ _ _ => trivial)
      have hboundsuf : ∀ u, pl + n + 2 ≤ u → u ≤ pr → ∀ t, pl ≤ t → t ≤ pl + n →
          keyAt keys (a1.set pl (heapGet a pl (n + 2))) t ≤ keyAt keys a u := by
        intro u hu1 hu2 t ht1 ht2
        rcases (by omega : t = pl ∨ pl < t) with he | he
        · subst he
          rw [hswap, keyAt_lswap_snd keys a (by omega) (by omega)]
          exact hcross (n + 2) u (by omega) (le_refl _) (by omega) hu2
        · rw [hswap, keyAt_lswap_other keys a (by omega) (by omega)]
          have he2 : t = pl + (t - pl + 1) - 1 := by omega
          rw [he2]
          exact hcross (t - pl + 1) u (by omega) (by omega) (by omega) hu2
      have hGroot : ∀ t, pl ≤ t → t ≤ pl + n → keyAt keys G t ≤ keyAt keys a pl :=
        segOp_bound_le hK2' (by omega) (by simp only [List.length_set]; rw [ha1len]; omega)
          hboundroot
      have hGcrosssuf : ∀ u, pl + n + 2 ≤ u → u ≤ pr → ∀ t, pl ≤ t → t ≤ pl + n →
          keyAt keys G t ≤ keyAt keys a u := by
        intro u hu1 hu2
        exact segOp_bound_le hK2' (by omega)
          (by simp only [List.length_set]; rw [ha1len]; omega) (hboundsuf u hu1 hu2)
      obtain ⟨hR1, hR2⟩ := ihm G (by omega) (by omega) (by rw [hGlen]; exact hlen)
        (fun h h2 hm => hK3 h h2 hm (by omega))
        (by
          intro u v hu huv hv
          rcases (by omega : u = v ∨ u < v) with he | he
          · rw [he]
          · rcases (by omega : u = pl + n + 1 ∨ pl + n + 1 < u) with h2 | h2
            · subst h2
              rw [hGtop, hGsuf v (by omega) hv]
              exact hcross 1 v (le_refl _) (by omega) (by omega) hv
            · rw [hGsuf u h2 (by omega), hGsuf v (by omega) hv]
              exact hsuf u v (by omega) huv hv)
        (by
          intro h u h1 h2 hu1 hu2
          rcases (by omega : u = pl + n + 1 ∨ pl + n + 1 < u) with he | he
          · subst he
            rw [hGtop]
            exact hGroot (pl + h - 1) (by omega) (by omega)
          · rw [hGsuf u he hu2]
            exact hGcrosssuf u (by omega) hu2 (pl + h - 1) (by omega) (by omega))
      have hunf : heapExtract keys pl a (n + 2) = heapExtract keys pl G (n + 1) := rfl
      rw [hunf]
      refine ⟨?_, hR2⟩
      have s1 : SegOp a (lswap a (pl + n + 1) pl) pl (pl + n + 1) :=
        lswap_segOp (by omega) (le_refl _) (le_refl pl) (by omega) (by omega) (by omega)
      rw [← hswap] at s1
      have s2 : SegOp (a1.set pl (heapGet a pl (n + 2))) G pl (pl + n + 1) :=
        segOp_mono (le_refl _) (by omega) hK2'
      have s3 : SegOp G (heapExtract keys pl G (n + 1)) pl (pl + n + 1) := by
        have e : pl + (n + 1) - 1 = pl + n := by omega
        rw [e] at hR1
        exact segOp_mono (le_refl _) (by omega) hR1
      have e2 : pl + (n + 1 + 1) - 1 = pl + n + 1 := by omega
      rw [e2]
      exact segOp_trans (segOp_trans s1 s2) s3

theorem heapsortSeg_spec (keys : List ℚ) {arr : List ℕ} {pl pr : ℕ} (hpl : pl ≤ pr)
    (hpr : pr < arr.length) :
    SegOp arr (heapsortSeg keys arr pl pr) pl pr ∧
      SortedSeg keys (heapsortSeg keys arr pl pr) pl pr := by
  have hunf : heapsortSeg keys arr pl pr =
      heapExtract keys pl (heapBuild keys pl (pr + 1 - pl) arr ((pr + 1 - pl) / 2))
        (pr + 1 - pl) := rfl
  obtain ⟨hB1, hB2⟩ := heapBuild_spec keys pl (pr + 1 - pl) (by omega) (by omega)
    ((pr + 1 - pl) / 2) arr hpr (le_refl _)
    (fun h h2 hm hpar => absurd hpar (by omega))
  have hBlen : pr < (heapBuild keys pl (pr + 1 - pl) arr ((pr + 1 - pl) / 2)).length := by
    have := hB1.1
    omega
  obtain ⟨hE1, hE2⟩ := heapExtract_spec keys pl (pr + 1 - pl)
    (heapBuild keys pl (pr + 1 - pl) arr ((pr + 1 - pl) / 2)) (by omega) (by omega) hBlen
    hB2
    (fun u v hu huv hv => absurd hu (by omega))
    (fun h u h1 h2 hu1 hu2 => absurd hu1 (by omega))
  rw [hunf]
  have e : pl + (pr + 1 - pl) - 1 = pr := by omega
  rw [e] at hE1
  have hlenE : pr <
      (heapExtract keys pl (heapBuild keys pl (pr + 1 - pl) arr ((pr + 1 - pl) / 2))
        (pr + 1 - pl)).length := by
    have := hE1.1
    omega
  refine ⟨segOp_trans (segOp_mono (le_refl _) (by omega) hB1) hE1, ?_⟩
  exact sortedSeg_of_pointwise hlenE hE2

theorem sortedSeg_transfer {keys : List ℚ} {b c : List ℕ} {pl pr : ℕ}
    (hpr : pr < b.length) (hlen : c.length = b.length)
    (hagree : ∀ t, pl ≤ t → t ≤ pr → c.getD t 0 = b.getD t 0)
    (h : SortedSeg keys b pl pr) : SortedSeg keys c pl pr := by
  have hprc : pr < c.length := by omega
  have hslice : sliceSeg c pl pr = sliceSeg b pl pr := by
    apply eq_of_length_getD
    · rw [sliceSeg_length c hprc, sliceSeg_length b hpr]
    · intro t ht
      rw [sliceSeg_length c hprc] at ht
      rw [sliceSeg_getD c ht hprc, sliceSeg_getD b ht hpr]
      exact hagree (pl + t) (by omega) (by omega)
  unfold SortedSeg at h ⊢
  rw [hslice]
  exact h

theorem sortedSeg_glue {keys : List ℚ} {b : List ℕ} {pl p pr : ℕ}
    (hp1 : pl < p) (hp2 : p < pr) (hpr : pr < b.length)
    (hL : SortedSeg keys b pl (p - 1)) (hR : SortedSeg keys b (p + 1) pr)
    (hbl : ∀ t, pl ≤ t → t < p → keyAt keys b t ≤ keyAt keys b p)
    (hbr : ∀ t, p < t → t ≤ pr → keyAt keys b p ≤ keyAt keys b t) :
    SortedSeg keys b pl pr := by
  unfold SortedSeg
  rw [sliceSeg_concat b hp1 (by omega) hpr, sliceSeg_cons b (by omega) hpr,
    List.Sorted, List.pairwise_append]
  refine ⟨hL, ?_, ?_⟩
  · rw [List.pairwise_cons]
    refine ⟨?_, hR⟩
    intro y hy
    obtain ⟨t, ht1, ht2, hty⟩ := (mem_sliceSeg hpr).mp hy
    rw [← hty]
    exact hbr t ht1 ht2
  · intro x hx y hy
    obtain ⟨s, hs1, hs2, hsx⟩ := (mem_sliceSeg (show p - 1 < b.length by omega)).mp hx
    rw [← hsx]
    rcases List.mem_cons.mp hy with hy1 | hy2
    · rw [hy1]
      exact hbl s hs1 (by omega)
    · obtain ⟨t, ht1, ht2, hty⟩ := (mem_sliceSeg hpr).mp hy2
      rw [← hty]
      exact le_trans (hbl s hs1 (by omega)) (hbr t (by omega) ht2)

theorem combine_left_first {keys : List ℚ} {arr A a2 R : List ℕ} {pl p pr : ℕ}
    (hp1 : pl < p) (hp2 : p < pr) (hlen : pr < arr.length)
    (hPseg : SegOp arr A pl pr)
    (hPleft : ∀ t, pl ≤ t → t < p → keyAt keys A t ≤ keyAt keys A p)
    (hPright : ∀ t, p < t → t ≤ pr → keyAt keys A p ≤ keyAt keys A t)
    (hLseg : SegOp A a2 pl (p - 1)) (hLsort : SortedSeg keys a2 pl (p - 1))
    (hRseg : SegOp a2 R (p + 1) pr) (hRsort : SortedSeg keys R (p + 1) pr) :
    SegOp arr R pl pr ∧ SortedSeg keys R pl pr := by
  have hAlen : A.length = arr.length := hPseg.1
  have ha2len : a2.length = A.length := hLseg.1
  have hRlen : R.length = a2.length := hRseg.1
  have hkey_a2p : keyAt keys a2 p = keyAt keys A p :=
    keyAt_eq_of_getD (hLseg.2.1 p (Or.inr (by omega)))
  have hkey_Rp : keyAt keys R p = keyAt keys A p := by
    rw [keyAt_eq_of_getD (hRseg.2.1 p (Or.inl (by omega)))]
    exact hkey_a2p
  have hLbound_a2 : ∀ t, pl ≤ t → t ≤ p - 1 → keyAt keys a2 t ≤ keyAt keys A p :=
    segOp_bound_le hLseg (by omega) (by omega)
      (fun t ht1 ht2 => hPleft t ht1 (by omega))
  have hRbound_a2 : ∀ t, p + 1 ≤ t → t ≤ pr → keyAt keys A p ≤ keyAt keys a2 t := by
    intro t ht1 ht2
    rw [keyAt_eq_of_getD (hLseg.2.1 t (Or.inr (by omega)))]
    exact hPright t (by omega) ht2
  have hRbound_R : ∀ t, p + 1 ≤ t → t ≤ pr → keyAt keys A p ≤ keyAt keys R t :=
    segOp_bound_ge hRseg (by omega) (by omega) hRbound_a2
  have hLbound_R : ∀ t, pl ≤ t → t ≤ p - 1 → keyAt keys R t ≤ keyAt keys A p := by
    intro t ht1 ht2
    rw [keyAt_eq_of_getD (hRseg.2.1 t (Or.inl (by omega)))]
    exact hLbound_a2 t ht1 ht2
  have hLsort_R : SortedSeg keys R pl (p - 1) :=
    sortedSeg_transfer (by omega) hRlen
      (fun t ht1 ht2 => hRseg.2.1 t (Or.inl (by omega))) hLsort
  refine ⟨?_, ?_⟩
  · exact segOp_trans (segOp_trans hPseg (segOp_mono (le_refl pl) (by omega) hLseg))
      (segOp_mono (by omega) (le_refl pr) hRseg)
  · refine sortedSeg_glue hp1 hp2 (by omega) hLsort_R hRsort ?_ ?_
    · intro t ht1 ht2
      rw [hkey_Rp]
      exact hLbound_R t ht1 (by omega)
    · intro t ht1 ht2
      rw [hkey_Rp]
      exact hRbound_R t (by omega) ht2

theorem combine_right_first {keys : List ℚ} {arr A a2 R : List ℕ} {pl p pr : ℕ}
    (hp1 : pl < p) (hp2 : p < pr) (hlen : pr < arr.length)
    (hPseg : SegOp arr A pl pr)
    (hPleft : ∀ t, pl ≤ t → t < p → keyAt keys A t ≤ keyAt keys A p)
    (hPright : ∀ t, p < t → t ≤ pr → keyAt keys A p ≤ keyAt keys A t)
    (hRseg : SegOp A a2 (p + 1) pr) (hRsort : SortedSeg keys a2 (p + 1) pr)
    (hLseg : SegOp a2 R pl (p - 1)) (hLsort : SortedSeg keys R pl (p - 1)) :
    SegOp arr R pl pr ∧ SortedSeg keys R pl pr := by
  have hAlen : A.length = arr.length := hPseg.1
  have ha2len : a2.length = A.length := hRseg.1
  have hRlen : R.length = a2.length := hLseg.1
  have hkey_a2p : keyAt keys a2 p = keyAt keys A p :=
    keyAt_eq_of_getD (hRseg.2.1 p (Or.inl (by omega)))
  have hkey_Rp : keyAt keys R p = keyAt keys A p := by
    rw [keyAt_eq_of_getD (hLseg.2.1 p (Or.inr (by omega)))]
    exact hkey_a2p
  have hRbound_a2 : ∀ t, p + 1 ≤ t → t ≤ pr → keyAt keys A p ≤ keyAt keys a2 t :=
    segOp_bound_ge hRseg (by omega) (by omega)
      (fun t ht1 ht2 => hPright t (by omega) ht2)
  have hLbound_a2 : ∀ t, pl ≤ t → t ≤ p - 1 → keyAt keys a2 t ≤ keyAt keys A p := by
    intro t ht1 ht2
    rw [keyAt_eq_of_getD (hRseg.2.1 t (Or.inl (by omega)))]
    exact hPleft t ht1 (by omega)
  have hLbound_R : ∀ t, pl ≤ t → t ≤ p - 1 → keyAt keys R t ≤ keyAt keys A p :=
    segOp_bound_le hLseg (by omega) (by omega) hLbound_a2
  have hRbound_R : ∀ t, p + 1 ≤ t → t ≤ pr → keyAt keys A p ≤ keyAt keys R t := by
    intro t ht1 ht2
    rw [keyAt_eq_of_getD (hLseg.2.1 t (Or.inr (by omega)))]
    exact hRbound_a2 t ht1 ht2
  have hRsort_R : SortedSeg keys R (p + 1) pr :=
    sortedSeg_transfer (by omega) hRlen
      (fun t ht1 ht2 => hLseg.2.1 t (Or.inr (by omega))) hRsort
  refine ⟨?_, ?_⟩
  · exact segOp_trans (segOp_trans hPseg (segOp_mono (by omega) (le_refl pr) hRseg))
      (segOp_mono (le_refl pl) (by omega) hLseg)
  · refine sortedSeg_glue hp1 hp2 (by omega) hLsort hRsort_R ?_ ?_
    · intro t ht1 ht2
      rw [hkey_Rp]
      exact hLbound_R t ht1 (by omega)
    · intro t ht1 ht2
      rw [hkey_Rp]
      exact hRbound_R t (by omega) ht2

theorem qsLoop_spec (keys : List ℚ) :
    ∀ (f : ℕ) (arr : List ℕ) (pl pr : ℕ) (depth : ℤ),
      pr < arr.length → pr - pl ≤ f →
      SegOp arr (qsLoop keys f arr pl pr depth) pl pr ∧
        SortedSeg keys (qsLoop keys f arr pl pr depth) pl pr := by
  intro f
  induction f with
  | zero =>
    intro arr pl pr depth hlen hf
    refine ⟨segOp_refl _ _ _, ?_⟩
    exact sortedSeg_of_pointwise hlen
      (fun u v hu huv hv => by
        have he : u = v := by omega
        rw [he])
  | succ f ih =>
    intro arr pl pr depth hlen hf
    by_cases h16 : 15 < pr - pl
    · obtain ⟨hPseg, hp1, hp2, hPleft, hPright⟩ :=
        partitionStep_spec keys (show pl + 16 ≤ pr by omega) hlen
      rw [qsLoop]
      rw [if_pos h16]
      dsimp only
      set A := (partitionStep keys arr pl pr).1 with hA
      set p := (partitionStep keys arr pl pr).2 with hp
      have hAlen : A.length = arr.length := hPseg.1
      by_cases hside : p - pl < pr - p
      · rw [if_pos hside]
        obtain ⟨hLseg, hLsort⟩ := ih A pl (p - 1) (depth - 1)
          (by omega) (by omega)
        set a2 := qsLoop keys f A pl (p - 1) (depth - 1) with ha2
        have ha2len : a2.length = A.length := hLseg.1
        by_cases hdep : depth - 1 < 0
        · rw [if_pos hdep]
          obtain ⟨hRseg, hRsort⟩ := heapsortSeg_spec keys (show p + 1 ≤ pr by omega)
            (show pr < a2.length by omega)
          exact combine_left_first hp1 hp2 hlen hPseg hPleft hPright hLseg hLsort hRseg hRsort
        · rw [if_neg hdep]
          obtain ⟨hRseg, hRsort⟩ := ih a2 (p + 1) pr (depth - 1) (by omega) (by omega)
          exact combine_left_first hp1 hp2 hlen hPseg hPleft hPright hLseg hLsort hRseg hRsort
      · rw [if_neg hside]
        obtain ⟨hRseg, hRsort⟩ := ih A (p + 1) pr (depth - 1) (by omega) (by omega)
        set a2 := qsLoop keys f A (p + 1) pr (depth - 1) with ha2
        have ha2len : a2.length = A.length := hRseg.1
        by_cases hdep : depth - 1 < 0
        · rw [if_pos hdep]
          obtain ⟨hLseg, hLsort⟩ := heapsortSeg_spec keys (show pl ≤ p - 1 by omega)
            (show p - 1 < a2.length by omega)
          exact combine_right_first hp1 hp2 hlen hPseg hPleft hPright hRseg hRsort hLseg hLsort
        · rw [if_neg hdep]
          obtain ⟨hLseg, hLsort⟩ := ih a2 pl (p - 1) (depth - 1) (by omega) (by omega)
          exact combine_right_first hp1 hp2 hlen hPseg hPleft hPright hRseg hRsort hLseg hLsort
    · have hunf : qsLoop keys (f + 1) arr pl pr depth = insertionSeg keys arr pl pr := by
        unfold qsLoop
        rw [if_neg h16]
      rw [hunf]
      by_cases hple : pl ≤ pr
      · exact insertionSeg_spec keys hple hlen
      · have hid : insertionSeg keys arr pl pr = arr := by
          unfold insertionSeg
          rw [if_pos (Or.inl (by omega))]
        rw [hid]
        refine ⟨segOp_refl _ _ _, ?_⟩
        exact sortedSeg_of_pointwise hlen
          (fun u v hu huv hv => absurd hu (by omega))

theorem npArgsort_spec (keys : List ℚ) :
    (npArgsort keys).Perm (List.range keys.length) ∧
      List.Sorted (fun i j => keys.getD i 0 ≤ keys.getD j 0) (npArgsort keys) := by
  unfold npArgsort
  dsimp only
  by_cases h0 : keys.length = 0
  · rw [if_pos h0, h0]
    exact ⟨List.Perm.refl _, List.sorted_nil⟩
  · rw [if_neg h0]
    obtain ⟨hseg, hsort⟩ := qsLoop_spec keys (keys.length + 17) (List.range keys.length)
      0 (keys.length - 1) (2 * ↑(msb keys.length))
      (by rw [List.length_range]; omega) (by omega)
    have hlen : (qsLoop keys (keys.length + 17) (List.range keys.length)
        0 (keys.length - 1) (2 * ↑(msb keys.length))).length = keys.length := by
      rw [hseg.1, List.length_range]
    refine ⟨hseg.2.2, ?_⟩
    unfold SortedSeg at hsort
    have hslice : sliceSeg (qsLoop keys (keys.length + 17) (List.range keys.length)
        0 (keys.length - 1) (2 * ↑(msb keys.length))) 0 (keys.length - 1) =
        qsLoop keys (keys.length + 17) (List.range keys.length)
          0 (keys.length - 1) (2 * ↑(msb keys.length)) := by
      unfold sliceSeg
      rw [List.drop_zero]
      rw [show keys.length - 1 + 1 - 0 = keys.length from by omega]
      exact List.take_of_length_le (by omega)
    rw [hslice] at hsort
    exact hsort

theorem range_filterMap_getElem {α : Type} (r : List α) :
    (List.range r.length).filterMap (fun i => r[i]?) = r := by
  induction r with
  | nil => rfl
  | cons x xs ih =>
    have h1 : List.range (x :: xs).length = 0 :: (List.range xs.length).map Nat.succ := by
      rw [List.length_cons, List.range_succ_eq_map]
    rw [h1]
    simp only [List.filterMap_cons, List.getElem?_cons_zero]
    rw [List.filterMap_map]
    congr 1
    have hfun : ((fun i => (x :: xs)[i]?) ∘ Nat.succ) = (fun i => xs[i]?) := by
      funext i
      simp [Function.comp]
    rw [hfun]
    exact ih

theorem mainNormalize_perm (raw : List RawRecord) :
    (mainNormalize raw).Perm (retained raw) := by
  unfold mainNormalize
  dsimp only
  have hp := (npArgsort_spec ((retained raw).map (·.date))).1
  have hlen : ((retained raw).map (·.date)).length = (retained raw).length :=
    List.length_map _ _
  have h2 := hp.filterMap (fun i => (retained raw)[i]?)
  rw [hlen, range_filterMap_getElem (retained raw)] at h2
  exact h2

theorem mainNormalize_sorted (raw : List RawRecord) :
    List.Sorted (fun a b : Obs => a.date ≤ b.date) (mainNormalize raw) := by
  unfold mainNormalize
  dsimp only
  rw [List.Sorted, List.pairwise_filterMap]
  have hs := (npArgsort_spec ((retained raw).map (·.date))).2
  refine hs.imp ?_
  intro i j hij o1 h1 o2 h2
  have hk := hij
  rw [retained_date_getD h1, retained_date_getD h2] at hk
  exact hk


theorem filterMap_getElem_map {α β : Type} (f : α → β) (r : List α) (l : List ℕ) :
    l.filterMap (fun i => (r.map f)[i]?) = (l.filterMap (fun i => r[i]?)).map f := by
  have hfun : (fun i : ℕ => (r.map f)[i]?) = (fun i : ℕ => Option.map f r[i]?) := by
    funext i
    rw [List.getElem?_map]
  rw [hfun]
  induction l with
  | nil => rfl
  | cons i is ih =>
    simp only [List.filterMap_cons]
    cases h : r[i]? <;> simp [h, ih]

theorem retainedF_parsed_filter (raw : List RawRecordF) :
    retainedF (raw.filter (fun r => r.date?.isSome && r.value?.isSome)) = retainedF raw := by
  induction raw with
  | nil => rfl
  | cons r raws ih =>
    rcases r with ⟨d?, v?⟩
    cases d? <;> cases v? <;> simp [retainedF, List.filter_cons, ih] <;>
      simpa [retainedF] using ih

theorem retainedF_date_getD {raw : List RawRecordF} {i : ℕ} {o : ObsF}
    (h : (retainedF raw)[i]? = some o) :
    ((retainedF raw).map (·.date)).getD i 0 = o.date := by
  rw [List.getD_eq_getElem?_getD, List.getElem?_map, h]
  rfl

theorem specNormalizeF_sorted (raw : List RawRecordF) :
    List.Sorted (fun a b : ObsF => a.date ≤ b.date) (specNormalizeF raw) := by
  unfold specNormalizeF
  dsimp only
  rw [List.Sorted, List.pairwise_filterMap]
  have hs : List.Sorted (lexLe ((retainedF raw).map (·.date)))
      (stableArgsort ((retainedF raw).map (·.date))) :=
    List.sorted_insertionSort _ _
  refine hs.imp ?_
  intro i j hij o1 h1 o2 h2
  have hk := lexLe_key_le hij
  rw [retainedF_date_getD h1, retainedF_date_getD h2] at hk
  exact hk

theorem mainNormalizeF_perm (raw : List RawRecordF) :
    (mainNormalizeF raw).Perm (retainedF raw) := by
  unfold mainNormalizeF
  dsimp only
  have hp := (npArgsort_spec ((retainedF raw).map (·.date))).1
  have hlen : ((retainedF raw).map (·.date)).length = (retainedF raw).length :=
    List.length_map _ _
  have h2 := hp.filterMap (fun i => (retainedF raw)[i]?)
  rw [hlen, range_filterMap_getElem (retainedF raw)] at h2
  exact h2

theorem mainNormalizeF_sorted (raw : List RawRecordF) :
    List.Sorted (fun a b : ObsF => a.date ≤ b.date) (mainNormalizeF raw) := by
  unfold mainNormalizeF
  dsimp only
  rw [List.Sorted, List.pairwise_filterMap]
  have hs := (npArgsort_spec ((retainedF raw).map (·.date))).2
  refine hs.imp ?_
  intro i j hij o1 h1 o2 h2
  have hk := hij
  rw [retainedF_date_getD h1, retainedF_date_getD h2] at hk
  exact hk

theorem retainedF_lift (raw : List RawRecord) :
    retainedF (raw.map liftRecord) = (retained raw).map liftObs := by
  unfold retainedF retained
  rw [List.filterMap_map, List.map_filterMap]
  congr 1
  funext r
  rcases r with ⟨d?, v?⟩
  cases d? <;> cases v? <;> rfl

/-- The finite-valued normalization used by the pipeline embedding is
exactly the faithful one restricted to finite parses. -/
theorem mainNormalizeF_lift (raw : List RawRecord) :
    mainNormalizeF (raw.map liftRecord) = (mainNormalize raw).map liftObs := by
  unfold mainNormalizeF mainNormalize
  dsimp only
  rw [retainedF_lift]
  have hkeys : ((retained raw).map liftObs).map (fun o => o.date) =
      (retained raw).map (fun o => o.date) := by
    rw [List.map_map]
    rfl
  rw [hkeys, filterMap_getElem_map liftObs (retained raw) _]

/-- C4 (amended): after normalization every retained observation has a
successfully parsed timestamp and a non-null numeric discharge - but NOT
necessarily a finite one: `pd.to_numeric` parses infinities to non-NaN
floats that the dropna retains, so the claim's finiteness conjunct fails
(see the counterexample); records failing either parse are dropped, not
errored, and never reach the detectors.  The retained observations are a
permutation of the parsed records arranged in ascending timestamp order
by numpy quicksort on the timestamp column (`sort_values` default kind,
i.e. introsort), for every input length; that sort is NOT stable in
general: only for series of at most 16 retained records, where introsort
reduces to its insertion sort, is the result exactly the stable ascending
order (ties in original input order); the counterexample shows a
17-record series whose equal timestamps are reordered. -/
theorem C4_normalize_invariants (raw : List RawRecordF) :
    (∀ o ∈ mainNormalizeF raw, ∃ r ∈ raw, r.date? = some o.date ∧ r.value? = some o.discharge) ∧
    mainNormalizeF raw = mainNormalizeF (raw.filter (fun r => r.date?.isSome && r.value?.isSome)) ∧
    (mainNormalizeF raw).Perm (retainedF raw) ∧
    List.Sorted (fun a b : ObsF => a.date ≤ b.date) (mainNormalizeF raw) ∧
    ((retainedF raw).length ≤ 16 → mainNormalizeF raw = specNormalizeF raw) := by
  refine ⟨?_, ?_, mainNormalizeF_perm raw, mainNormalizeF_sorted raw, ?_⟩
  · intro o ho
    obtain ⟨i, -, hio⟩ := List.mem_filterMap.mp ho
    have hmem : o ∈ retainedF raw := by
      have hx := List.getElem?_eq_some.mp hio
      obtain ⟨hlt, he⟩ := hx
      exact he ▸ List.getElem_mem hlt
    obtain ⟨r, hr, hparse⟩ := List.mem_filterMap.mp hmem
    rcases r with ⟨d?, v?⟩
    cases d? with
    | none => simp [retainedF] at hparse
    | some d =>
      cases v? with
      | none => simp [retainedF] at hparse
      | some v =>
        refine ⟨⟨some d, some v⟩, hr, ?_⟩
        simp only [retainedF] at hparse
        injection hparse with hov
        rw [← hov]
        exact ⟨rfl, rfl⟩
  · unfold mainNormalizeF
    rw [retainedF_parsed_filter]
  · intro hlen
    unfold mainNormalizeF specNormalizeF
    dsimp only
    rw [npArgsort_small _ (by rw [List.length_map]; exact hlen)]

/-- C4 (counterexample): the numpy quicksort reorders 17 records sharing
one timestamp, refuting the stability clause; and a record whose value
parses to +inf is retained by the dropna and reaches the normalized
output with a non-finite discharge, refuting the finiteness clause. -/
theorem C4_counterexample :
    mainNormalizeF rawTiesF ≠ specNormalizeF rawTiesF ∧
    specNormalizeF rawTiesF = retainedF rawTiesF ∧
    (retainedF rawTiesF).map (·.date) = List.replicate 17 0 ∧
    retainedF [⟨some 0, some PFloat.posInf⟩] = [⟨0, PFloat.posInf⟩] ∧
    (mainNormalizeF [⟨some 0, some PFloat.posInf⟩]).map (fun o => o.discharge.finite) =
      [false] := by
  decide

theorem C4_witness :
    (retainedF rawInfF).length ≤ 16 ∧
    mainNormalizeF rawInfF = specNormalizeF rawInfF ∧
    List.Sorted (fun a b : ObsF => a.date ≤ b.date) (mainNormalizeF rawInfF) ∧
    (mainNormalizeF rawInfF).Perm (retainedF rawInfF) :=
  ⟨by decide, (C4_normalize_invariants rawInfF).2.2.2.2 (by decide),
   (C4_normalize_invariants rawInfF).2.2.2.1, (C4_normalize_invariants rawInfF).2.2.1⟩

end Discharge
